import Mathlib

/-!
Verification development for the ctx7 local file cache.

The Go cache subsystem (`Cache` in the repository's cache package) is shallowly
embedded here.  The filesystem is modelled as an explicit state (`FS`): a list
of existing directory paths plus an association list from file paths to file
contents.  Paths are lists of segments (the base directory prefix, fixed for a
cache instance, is factored out; all paths are relative to the cache root, so an
entry lives at `["libraries", org, name, version, "metadata.json"]`).

Machine integers (`int64` sizes, `time.Time`/`time.Duration` values) are
modelled as `Nat` (file sizes, never negative) and `Int` (timestamps and
durations, nanoseconds since the epoch; the zero `time.Time` is modelled as
`0`, and `t.After u` as `t > u`).  `float64 TrustScore` is carried opaquely as
an `Int`: no cache operation computes with it, it is only stored and returned.
JSON encoding of the metadata record is modelled structurally: a metadata file
either holds a decodable `Metadata` value or undecodable bytes (`FileData`),
mirroring the only observable outcome of `json.Decode`/`json.Unmarshal` in the
source; `encodeMetadata` is a concrete stand-in rendering used only for the
byte length of an encoded record and for reading a metadata file as raw bytes,
neither of which any claim depends on.

I/O failures during `SetWithVersion` (directory creation, temp-file write,
encode, rename) are injected through an explicit oracle (`SetOracle`), one
decision per fallible operation in the source, so that the atomicity protocol
of `Cache.SetWithVersion` can be analysed for every failure point.
-/

namespace Ctx7

/-- Metadata stores metadata about a cached library (cache/types.go `Metadata`).
`FetchedAt` is an integer timestamp, `TrustScore` an opaque numeric field. -/
structure Metadata where
  libraryID : String
  title : String
  version : String
  fetchedAt : Int
  lastUpdateDate : String
  totalTokens : Int
  totalSnippets : Int
  stars : Int
  trustScore : Int
  versions : List String
deriving DecidableEq

/-- A complete cache entry with metadata and content (cache/types.go `CacheEntry`). -/
structure CacheEntry where
  metadata : Metadata
  content : String
deriving DecidableEq

/-- Statistics about the cache (cache/types.go `CacheStats`; the `CacheDir`
string field, which merely echoes the configured root path, is factored out of
the model together with the root path itself). -/
structure CacheStats where
  totalEntries : Nat
  totalSize : Nat
  oldestEntry : Int
  newestEntry : Int
deriving DecidableEq

/-- Information about one cached version (cache/types.go `VersionInfo`). -/
structure VersionInfo where
  version : String
  isDefault : Bool
  size : Nat
  fetchedAt : Int
  metadata : Metadata
deriving DecidableEq

/-- A library entry in the cache with all its versions (cache/types.go `CachedLibrary`). -/
structure CachedLibrary where
  libraryID : String
  organization : String
  name : String
  versions : List VersionInfo
deriving DecidableEq

/-- Prune configuration (cache/types.go `PruneOptions`). -/
structure PruneOptions where
  maxAge : Int
  dryRun : Bool
  keepLatest : Bool
deriving DecidableEq

/-- Prune outcome (cache/types.go `PruneResult`). -/
structure PruneResult where
  removedCount : Nat
  freedSpace : Nat
  removedItems : List String
deriving DecidableEq

/-! ## String helpers mirroring the Go standard library calls used by the cache -/

/-- `strings.TrimPrefix(s, "/")`: strip one leading separator if present. -/
def trimLeadingSlash (s : String) : String :=
  match s.data with
  | '/' :: rest => String.mk rest
  | _ => s

/-- Prepend a character to the first group of a split. -/
def consHead (c : Char) : List (List Char) → List (List Char)
  | [] => [[c]]
  | h :: t => (c :: h) :: t

/-- Splitting a character list at every `'/'`; the backing computation of
`strings.Split(s, "/")`.  Always returns a non-empty list. -/
def charSplit : List Char → List (List Char)
  | [] => [[]]
  | c :: cs => if c = '/' then [] :: charSplit cs else consHead c (charSplit cs)

/-- `strings.Split(s, "/")`. -/
def splitSlash (s : String) : List String :=
  (charSplit s.data).map String.mk

/-- Lexicographic order on character lists; for UTF-8 encoded strings this is
exactly Go's byte-wise string comparison (UTF-8 preserves code-point order). -/
def charListLt : List Char → List Char → Bool
  | [], [] => false
  | [], _ :: _ => true
  | _ :: _, [] => false
  | a :: as, b :: bs => if a < b then true else if b < a then false else charListLt as bs

/-- Go's `<` on strings. -/
def strLtB (a b : String) : Bool := charListLt a.data b.data

/-- Decidable equality of `Except` results. -/
instance instDecidableEqExcept {ε α : Type} [DecidableEq ε] [DecidableEq α] :
    DecidableEq (Except ε α) := fun a b =>
  match a, b with
  | .ok x, .ok y =>
    if h : x = y then isTrue (by rw [h]) else isFalse (by intro hc; cases hc; exact h rfl)
  | .error x, .error y =>
    if h : x = y then isTrue (by rw [h]) else isFalse (by intro hc; cases hc; exact h rfl)
  | .ok x, .error y => isFalse (by intro hc; cases hc)
  | .error x, .ok y => isFalse (by intro hc; cases hc)

/-- Concrete stand-in for the indented JSON rendering of a metadata record,
used only where the source observes the raw bytes or byte length of an encoded
record (never by any cache-level decision). -/
def encodeMetadata (m : Metadata) : String :=
  "\x7b" ++ m.libraryID ++ "," ++ m.title ++ "," ++ m.version ++ "," ++
    toString m.fetchedAt ++ "," ++ m.lastUpdateDate ++ "," ++
    toString m.totalTokens ++ "," ++ toString m.totalSnippets ++ "," ++
    toString m.stars ++ "," ++ toString m.trustScore ++ "," ++
    String.join m.versions ++ "\x7d"

/-! ## Paths and the filesystem state -/

/-- A filesystem path, as a list of segments relative to the cache root. -/
abbrev Path := List String

/-- `filepath.Join` over already-split components: empty components are
dropped (the separator-cleaning part of `Join` that the cache relies on when an
identifier produces empty segments). -/
def joinClean (segs : List String) : Path :=
  segs.filter (fun s => !(s == ""))

/-- The contents of a regular file: either bytes that decode as a `Metadata`
record, or opaque bytes that do not. -/
inductive FileData where
  | blob (s : String)
  | meta (m : Metadata)
deriving DecidableEq

/-- The raw bytes of a file, as `os.ReadFile` would return them. -/
def FileData.bytes : FileData → String
  | .blob s => s
  | .meta m => encodeMetadata m

/-- A regular file: contents, size in bytes (`os.FileInfo.Size`), and
modification time (`os.FileInfo.ModTime`). -/
structure FSFile where
  data : FileData
  size : Nat
  mtime : Int
deriving DecidableEq

/-- The filesystem below the cache root: existing directories and regular
files.  `files` is keyed by path; a real filesystem has no duplicate paths and
every file's parent directory exists (`wellFormed` below), but operations are
total over arbitrary states. -/
structure FS where
  dirs : List Path
  files : List (Path × FSFile)
deriving DecidableEq

/-- Association-list update: replace the binding for `p`, or append one. -/
def setAssoc : List (Path × FSFile) → Path → FSFile → List (Path × FSFile)
  | [], p, f => [(p, f)]
  | (q, g) :: rest, p, f =>
    if q == p then (p, f) :: rest else (q, g) :: setAssoc rest p f

/-- Look up the regular file at `p`, if any. -/
def FS.findFile (fs : FS) (p : Path) : Option FSFile :=
  match fs.files.find? (fun pf => pf.1 == p) with
  | some pf => some pf.2
  | none => none

/-- `os.Stat` succeeds: a directory or regular file exists at `p`. -/
def FS.statExists (fs : FS) (p : Path) : Bool :=
  fs.dirs.contains p || (fs.findFile p).isSome

/-- All non-empty prefixes of a path: the directories `os.MkdirAll` ensures. -/
def pathPrefixes (p : Path) : List Path :=
  (List.range p.length).map (fun k => p.take (k + 1))

/-- `os.MkdirAll p`: every prefix directory of `p` exists afterwards. -/
def FS.mkdirAll (fs : FS) (p : Path) : FS :=
  { fs with dirs := fs.dirs ++ pathPrefixes p }

/-- Create or truncate the regular file at `p` (`os.WriteFile` / `os.Create`
followed by a successful write). -/
def FS.writeFile (fs : FS) (p : Path) (f : FSFile) : FS :=
  { fs with files := setAssoc fs.files p f }

/-- `os.Remove` of a regular file at `p`. -/
def FS.removeFileAt (fs : FS) (p : Path) : FS :=
  { fs with files := fs.files.filter (fun pf => !(pf.1 == p)) }

/-- `os.Rename src dst` for regular files: `dst` is atomically replaced. -/
def FS.rename (fs : FS) (src dst : Path) : FS :=
  match fs.findFile src with
  | some f => (fs.removeFileAt src).writeFile dst f
  | none => fs

/-- `os.RemoveAll p`: delete `p` and everything below it. -/
def FS.removeAll (fs : FS) (p : Path) : FS :=
  { dirs := fs.dirs.filter (fun d => !(p.isPrefixOf d)),
    files := fs.files.filter (fun pf => !(p.isPrefixOf pf.1)) }

/-- Whether `os.ReadDir p` would report an immediate child entry. -/
def FS.hasChild (fs : FS) (p : Path) : Bool :=
  fs.dirs.any (fun d => p.isPrefixOf d && d.length == p.length + 1) ||
    fs.files.any (fun pf => p.isPrefixOf pf.1 && pf.1.length == p.length + 1)

/-- `os.ReadDir p` succeeds and returns no entries: `p` is an existing, empty
directory. -/
def FS.readDirEmpty (fs : FS) (p : Path) : Bool :=
  fs.dirs.contains p && !(fs.hasChild p)

/-- `os.Remove` of a directory path. -/
def FS.removeDir (fs : FS) (p : Path) : FS :=
  { fs with dirs := fs.dirs.filter (fun d => !(d == p)) }

/-- The last segment of a path (`filepath.Base` / `os.FileInfo.Name`). -/
def lastName : Path → String
  | [] => ""
  | [a] => a
  | _ :: b :: t => lastName (b :: t)

/-- Strict lexicographic order on paths; `filepath.Walk` visits directory
entries in this order (name order within each directory, depth first). -/
def pathLt : Path → Path → Bool
  | [], [] => false
  | [], _ :: _ => true
  | _ :: _, [] => false
  | a :: as, b :: bs => if a = b then pathLt as bs else strLtB a b

/-- Insertion into a list sorted by the strict order `lt`. -/
def insertSorted (lt : α → α → Bool) (x : α) : List α → List α
  | [] => [x]
  | y :: ys => if lt x y then x :: y :: ys else y :: insertSorted lt x ys

/-- Insertion sort by the strict order `lt` (the observable behaviour of
`sort.Slice` for the comparators used by the cache). -/
def sortBy (lt : α → α → Bool) : List α → List α
  | [] => []
  | x :: xs => insertSorted lt x (sortBy lt xs)

/-- The regular files `filepath.Walk` visits below the `libraries` root, in
visit order. -/
def FS.walkFiles (fs : FS) : List (Path × FSFile) :=
  sortBy (fun a b => pathLt a.1 b.1)
    (fs.files.filter (fun pf => ["libraries"].isPrefixOf pf.1 && decide (2 ≤ pf.1.length)))

namespace Cache

/-! ## Cache operations (cache.go), over an explicit `FS` state -/

/-- `Cache.getCacheDir`: the on-disk directory for `(libraryID, version)`. -/
def getCacheDir (libraryID version : String) : Path :=
  let parts := splitSlash (trimLeadingSlash libraryID)
  let versionDir := if version == "" then "default" else version
  joinClean ("libraries" :: parts ++ [versionDir])

/-- Failure outcomes of `Cache.GetWithVersion`, one per `return nil, err` site:
opening `metadata.json` fails, decoding it fails, the entry is expired, or
reading `content.txt` fails.  In the specification's error taxonomy all four
are the CacheMiss class. -/
inductive GetErr where
  | openMiss
  | decodeFail
  | expired
  | readContentFail
deriving DecidableEq

/-- `Cache.GetWithVersion`: read one entry, checking freshness against `now`. -/
def getWithVersion (fs : FS) (now : Int) (libraryID version : String) (maxAge : Int) :
    Except GetErr CacheEntry :=
  let cacheDir := getCacheDir libraryID version
  let metadataPath := cacheDir ++ ["metadata.json"]
  let contentPath := cacheDir ++ ["content.txt"]
  match fs.findFile metadataPath with
  | none => .error .openMiss
  | some mf =>
    match mf.data with
    | .blob _ => .error .decodeFail
    | .meta metadata =>
      if now - metadata.fetchedAt > maxAge then .error .expired
      else
        match fs.findFile contentPath with
        | none => .error .readContentFail
        | some cf => .ok ⟨metadata, cf.data.bytes⟩

/-- Outcome of the temp-content `os.WriteFile` call: success, failure creating
the file, or failure after writing the first `k` bytes (a short write leaves a
truncated file behind). -/
inductive WriteOutcome where
  | ok
  | failNoFile
  | failShort (k : Nat)
deriving DecidableEq

/-- Failure injection for `Cache.SetWithVersion`: one decision per fallible
filesystem operation, in source order. -/
structure SetOracle where
  mkdirOk : Bool
  writeContent : WriteOutcome
  renameContentOk : Bool
  createMetaOk : Bool
  encodeOk : Bool
  renameMetaOk : Bool
deriving DecidableEq

/-- The oracle under which every filesystem operation succeeds. -/
def allOk : SetOracle := ⟨true, .ok, true, true, true, true⟩

/-- The error sites of `Cache.SetWithVersion`, one per `return fmt.Errorf`. -/
inductive SetErr where
  | mkdirFail
  | writeContentFail
  | renameContentFail
  | createMetaFail
  | encodeFail
  | renameMetaFail
deriving DecidableEq

/-- `Cache.SetWithVersion`: write content then metadata, each via a temp file
renamed into place.  Returns the resulting filesystem and the propagated
error, if any. -/
def setWithVersion (fs : FS) (now : Int) (o : SetOracle)
    (libraryID version content : String) (metadata : Metadata) : FS × Option SetErr :=
  let cacheDir := getCacheDir libraryID version
  if !o.mkdirOk then (fs, some .mkdirFail) else
  let fs1 := fs.mkdirAll cacheDir
  let contentPath := cacheDir ++ ["content.txt"]
  let tmpContentPath := cacheDir ++ ["content.txt.tmp"]
  match o.writeContent with
  | .failNoFile => (fs1, some .writeContentFail)
  | .failShort k =>
    (fs1.writeFile tmpContentPath
      ⟨.blob (String.mk (content.data.take k)), (String.mk (content.data.take k)).utf8ByteSize, now⟩,
     some .writeContentFail)
  | .ok =>
  let fs2 := fs1.writeFile tmpContentPath ⟨.blob content, content.utf8ByteSize, now⟩
  if !o.renameContentOk then (fs2.removeFileAt tmpContentPath, some .renameContentFail) else
  let fs3 := fs2.rename tmpContentPath contentPath
  let metadataPath := cacheDir ++ ["metadata.json"]
  let tmpMetadataPath := cacheDir ++ ["metadata.json.tmp"]
  if !o.createMetaOk then (fs3, some .createMetaFail) else
  let fs4 := fs3.writeFile tmpMetadataPath ⟨.blob "", 0, now⟩
  if !o.encodeOk then (fs4.removeFileAt tmpMetadataPath, some .encodeFail) else
  let fs5 := fs4.writeFile tmpMetadataPath
    ⟨.meta metadata, (encodeMetadata metadata).utf8ByteSize, now⟩
  if !o.renameMetaOk then (fs5.removeFileAt tmpMetadataPath, some .renameMetaFail) else
  (fs5.rename tmpMetadataPath metadataPath, none)

/-- Errors of the removal operations: malformed identifier, or target absent. -/
inductive RemoveErr where
  | invalidId
  | notFound
deriving DecidableEq

/-- `Cache.RemoveLibrary`: remove every cached version of a library. -/
def removeLibrary (fs : FS) (libraryID : String) : Except RemoveErr FS :=
  match splitSlash (trimLeadingSlash libraryID) with
  | org :: library :: _ =>
    let libraryDir := joinClean ["libraries", org, library]
    if !(fs.statExists libraryDir) then .error .notFound else
    let fs1 := fs.removeAll libraryDir
    let orgDir := joinClean ["libraries", org]
    .ok (if fs1.readDirEmpty orgDir then fs1.removeDir orgDir else fs1)
  | _ => .error .invalidId

/-- `Cache.RemoveLibraryVersion`: remove one version directory, then clean up
now-empty parents (library directory, then organization directory). -/
def removeLibraryVersion (fs : FS) (libraryID version : String) : Except RemoveErr FS :=
  let libraryID1 := trimLeadingSlash libraryID
  let versionDir := getCacheDir libraryID1 version
  if !(fs.statExists versionDir) then .error .notFound else
  let fs1 := fs.removeAll versionDir
  match splitSlash libraryID1 with
  | org :: library :: _ =>
    let libraryDir := joinClean ["libraries", org, library]
    .ok (if fs1.readDirEmpty libraryDir then
      let fs2 := fs1.removeDir libraryDir
      let orgDir := joinClean ["libraries", org]
      if fs2.readDirEmpty orgDir then fs2.removeDir orgDir else fs2
    else fs1)
  | _ => .ok fs1

/-- `Cache.ForceUpdate`: invalidate a whole library, or one version. -/
def forceUpdate (fs : FS) (libraryID version : String) : Except RemoveErr FS :=
  if version == "" then removeLibrary fs libraryID
  else removeLibraryVersion fs libraryID version

/-- The body of the `GetStats` walk callback for one visited file. -/
def statsStep (fs : FS) (stats : CacheStats) (pf : Path × FSFile) : CacheStats :=
  if lastName pf.1 == "metadata.json" then
    let stats1 :=
      { stats with
        totalEntries := stats.totalEntries + 1
        totalSize := stats.totalSize + pf.2.size
        oldestEntry := if pf.2.mtime < stats.oldestEntry then pf.2.mtime else stats.oldestEntry
        newestEntry := if pf.2.mtime > stats.newestEntry then pf.2.mtime else stats.newestEntry }
    match fs.findFile (pf.1.dropLast ++ ["content.txt"]) with
    | some cf => { stats1 with totalSize := stats1.totalSize + cf.size }
    | none => stats1
  else stats

/-- `Cache.GetStats`: walk `libraries/`, counting every `metadata.json` and
adding the adjacent `content.txt` size when it exists. -/
def getStats (fs : FS) (now : Int) : CacheStats :=
  fs.walkFiles.foldl (statsStep fs) ⟨0, 0, now, 0⟩

/-- One record produced by the `ListCachedLibraries` walk callback before
grouping: the derived identifier, organization, name, and version info. -/
structure WalkRec where
  libID : String
  org : String
  name : String
  vinfo : VersionInfo
deriving DecidableEq

/-- The body of the `ListCachedLibraries` walk callback for one visited file:
`none` exactly when the file is skipped (not `metadata.json`, corrupted
metadata, or fewer than three path segments below the libraries root). -/
def mkRec (fs : FS) (pf : Path × FSFile) : Option WalkRec :=
  if lastName pf.1 == "metadata.json" then
    match pf.2.data with
    | .blob _ => none
    | .meta metadata =>
      let size :=
        pf.2.size +
          (match fs.findFile (pf.1.dropLast ++ ["content.txt"]) with
           | some cf => cf.size
           | none => 0)
      match pf.1.drop 1 with
      | org :: name :: version :: _ =>
        some ⟨"/" ++ org ++ "/" ++ name, org, name,
          ⟨version, version == "default", size, metadata.fetchedAt, metadata⟩⟩
      | _ => none
  else none

/-- Group one walk record into the per-library accumulator (the
`libraryMap` insert-or-append of the source). -/
def insertRec : List CachedLibrary → WalkRec → List CachedLibrary
  | [], r => [⟨r.libID, r.org, r.name, [r.vinfo]⟩]
  | lib :: rest, r =>
    if lib.libraryID == r.libID then
      { lib with versions := lib.versions ++ [r.vinfo] } :: rest
    else lib :: insertRec rest r

/-- Group all walk records by library identifier. -/
def buildCat (recs : List WalkRec) : List CachedLibrary :=
  recs.foldl insertRec []

/-- The version comparator of `ListCachedLibraries`: `default` first, then by
version string. -/
def versLt (a b : VersionInfo) : Bool :=
  if a.isDefault then true
  else if b.isDefault then false
  else strLtB a.version b.version

/-- The top-level comparator of `ListCachedLibraries`: by library identifier. -/
def libLt (a b : CachedLibrary) : Bool :=
  strLtB a.libraryID b.libraryID

/-- `Cache.ListCachedLibraries`: scan `libraries/` and rebuild the catalog. -/
def listCachedLibraries (fs : FS) : Except String (List CachedLibrary) :=
  if !(fs.statExists ["libraries"]) then .ok [] else
  let recs := fs.walkFiles.filterMap (mkRec fs)
  let cat := (buildCat recs).map (fun lib => { lib with versions := sortBy versLt lib.versions })
  .ok (sortBy libLt cat)

/-- The fold of `Prune`'s latest-version selection for one library:
a strictly greater fetch timestamp replaces the current latest. -/
def latestOf (versions : List VersionInfo) : Int × String :=
  versions.foldl (fun acc v => if v.fetchedAt > acc.1 then (v.fetchedAt, v.version) else acc)
    (0, "")

/-- The `latestVersions` map of `Prune` (built only when `KeepLatest` is set). -/
def buildLatest (libraries : List CachedLibrary) : List (String × String) :=
  libraries.filterMap (fun lib =>
    let lv := (latestOf lib.versions).2
    if lv == "" then none else some (lib.libraryID, lv))

/-- Go map lookup with the string zero value for a missing key. -/
def lookupD (l : List (String × String)) (k : String) : String :=
  match l.find? (fun p => p.1 == k) with
  | some p => p.2
  | none => ""

/-- The body of `Prune`'s inner loop for one (library, version) record:
keep-latest exemption, age check, then (unless dry-run) removal with
continue-on-error. -/
def pruneStep (opts : PruneOptions) (now : Int) (latest : List (String × String))
    (libID : String) (acc : PruneResult × FS) (v : VersionInfo) : PruneResult × FS :=
  if opts.keepLatest && (lookupD latest libID == v.version) then acc
  else if now - v.fetchedAt > opts.maxAge then
    let itemName := libID ++ "@" ++ v.version
    if opts.dryRun then
      ({ removedCount := acc.1.removedCount + 1
         freedSpace := acc.1.freedSpace + v.size
         removedItems := acc.1.removedItems ++ [itemName] }, acc.2)
    else
      match removeLibraryVersion acc.2 libID v.version with
      | .error _ => acc
      | .ok fs2 =>
        ({ removedCount := acc.1.removedCount + 1
           freedSpace := acc.1.freedSpace + v.size
           removedItems := acc.1.removedItems ++ [itemName] }, fs2)
  else acc

/-- `Cache.Prune`: remove entries older than `opts.maxAge`, optionally keeping
each library's latest version.  Returns the report and the resulting state. -/
def prune (fs : FS) (now : Int) (opts : PruneOptions) :
    Except String (PruneResult × FS) :=
  match listCachedLibraries fs with
  | .error e => .error e
  | .ok libraries =>
    let latest := if opts.keepLatest then buildLatest libraries else []
    .ok (libraries.foldl
      (fun acc lib => lib.versions.foldl (pruneStep opts now latest lib.libraryID) acc)
      (⟨0, 0, []⟩, fs))

end Cache

end Ctx7

namespace Ctx7

/-! ## Basic lemmas about the filesystem model -/

theorem append_singleton_ne {l : Path} {a b : String} (h : a ≠ b) : l ++ [a] ≠ l ++ [b] := by
  intro he
  exact h (by simpa using List.append_cancel_left he)

theorem find?_filter_keep (l : List (Path × FSFile)) (pred : Path → Bool) (q : Path)
    (hq : pred q = true) :
    (l.filter (fun pf => pred pf.1)).find? (fun pf => pf.1 == q) =
      l.find? (fun pf => pf.1 == q) := by
  induction l with
  | nil => rfl
  | cons hd tl ih =>
    obtain ⟨r, g⟩ := hd
    by_cases hr : r = q
    · subst hr
      simp [List.filter_cons, hq]
    · cases hp : pred r with
      | true => simp [List.filter_cons, hp, hr, ih]
      | false => simp [List.filter_cons, hp, hr, ih]

theorem find?_filter_drop (l : List (Path × FSFile)) (pred : Path → Bool) (q : Path)
    (hq : pred q = false) :
    (l.filter (fun pf => pred pf.1)).find? (fun pf => pf.1 == q) = none := by
  induction l with
  | nil => rfl
  | cons hd tl ih =>
    obtain ⟨r, g⟩ := hd
    by_cases hr : r = q
    · subst hr
      simp [List.filter_cons, hq, ih]
    · cases hp : pred r with
      | true => simp [List.filter_cons, hp, hr, ih]
      | false => simp [List.filter_cons, hp, ih]

theorem find?_setAssoc_self (l : List (Path × FSFile)) (p : Path) (f : FSFile) :
    (setAssoc l p f).find? (fun pf => pf.1 == p) = some (p, f) := by
  induction l with
  | nil => simp [setAssoc]
  | cons hd tl ih =>
    obtain ⟨r, g⟩ := hd
    by_cases h : r = p
    · subst h
      simp [setAssoc]
    · simp [setAssoc, h, ih]

theorem find?_setAssoc_ne (l : List (Path × FSFile)) (p q : Path) (f : FSFile) (h : q ≠ p) :
    (setAssoc l p f).find? (fun pf => pf.1 == q) = l.find? (fun pf => pf.1 == q) := by
  induction l with
  | nil => simp [setAssoc, Ne.symm h]
  | cons hd tl ih =>
    obtain ⟨r, g⟩ := hd
    by_cases hh : r = p
    · subst hh
      simp [setAssoc, Ne.symm h]
    · by_cases h2 : r = q
      · subst h2
        simp [setAssoc, hh]
      · simp [setAssoc, hh, h2, ih]

theorem findFile_writeFile_self (fs : FS) (p : Path) (f : FSFile) :
    (fs.writeFile p f).findFile p = some f := by
  simp [FS.findFile, FS.writeFile, find?_setAssoc_self]

theorem findFile_writeFile_ne (fs : FS) (p q : Path) (f : FSFile) (h : q ≠ p) :
    (fs.writeFile p f).findFile q = fs.findFile q := by
  simp [FS.findFile, FS.writeFile, find?_setAssoc_ne _ _ _ _ h]

theorem findFile_removeFileAt_self (fs : FS) (p : Path) :
    (fs.removeFileAt p).findFile p = none := by
  simp [FS.findFile, FS.removeFileAt, find?_filter_drop _ (fun r => !(r == p)) p (by simp)]

theorem findFile_removeFileAt_ne (fs : FS) (p q : Path) (h : q ≠ p) :
    (fs.removeFileAt p).findFile q = fs.findFile q := by
  simp [FS.findFile, FS.removeFileAt, find?_filter_keep _ (fun r => !(r == p)) q (by simp [h])]

theorem findFile_mkdirAll (fs : FS) (p q : Path) :
    (fs.mkdirAll p).findFile q = fs.findFile q := rfl

theorem findFile_removeDir (fs : FS) (p q : Path) :
    (fs.removeDir p).findFile q = fs.findFile q := rfl

theorem rename_eq (fs : FS) (src dst : Path) (f : FSFile) (h : fs.findFile src = some f) :
    fs.rename src dst = (fs.removeFileAt src).writeFile dst f := by
  unfold FS.rename
  rw [h]

theorem isPrefixOf_eq_false {p q : Path} (h : ¬ p <+: q) : p.isPrefixOf q = false := by
  cases hb : List.isPrefixOf p q with
  | false => rfl
  | true => exact absurd (List.isPrefixOf_iff_prefix.mp hb) h

theorem findFile_removeAll_of_prefix (fs : FS) (p q : Path) (h : p <+: q) :
    (fs.removeAll p).findFile q = none := by
  unfold FS.findFile FS.removeAll
  rw [find?_filter_drop fs.files (fun r => !(List.isPrefixOf p r)) q
    (by simp [List.isPrefixOf_iff_prefix, h])]

theorem findFile_removeAll_of_not_prefix (fs : FS) (p q : Path) (h : ¬ p <+: q) :
    (fs.removeAll p).findFile q = fs.findFile q := by
  unfold FS.findFile FS.removeAll
  rw [find?_filter_keep fs.files (fun r => !(List.isPrefixOf p r)) q
    (by simp [isPrefixOf_eq_false h])]

theorem dirs_writeFile (fs : FS) (p : Path) (f : FSFile) : (fs.writeFile p f).dirs = fs.dirs := rfl

theorem dirs_removeFileAt (fs : FS) (p : Path) : (fs.removeFileAt p).dirs = fs.dirs := rfl

theorem dirs_rename (fs : FS) (src dst : Path) : (fs.rename src dst).dirs = fs.dirs := by
  unfold FS.rename
  split <;> rfl

theorem mem_dirs_removeAll (fs : FS) (p q : Path) (h : q ∈ fs.dirs) (hp : ¬ p <+: q) :
    q ∈ (fs.removeAll p).dirs :=
  List.mem_filter.mpr ⟨h, by simp [isPrefixOf_eq_false hp]⟩

theorem mem_dirs_removeDir (fs : FS) (p q : Path) (h : q ∈ fs.dirs) (hne : q ≠ p) :
    q ∈ (fs.removeDir p).dirs :=
  List.mem_filter.mpr ⟨h, by simp [hne]⟩

theorem statExists_of_mem_dirs (fs : FS) (p : Path) (h : p ∈ fs.dirs) :
    fs.statExists p = true := by
  simp [FS.statExists]
  exact Or.inl h

end Ctx7

namespace Ctx7

/-! ## The four file paths of one cache entry -/

/-- Path of the committed content blob of an entry. -/
def contentPathOf (libraryID version : String) : Path :=
  Cache.getCacheDir libraryID version ++ ["content.txt"]

/-- Path of the committed metadata record of an entry. -/
def metadataPathOf (libraryID version : String) : Path :=
  Cache.getCacheDir libraryID version ++ ["metadata.json"]

/-- Path of the temporary content file used by `SetWithVersion`. -/
def tmpContentPathOf (libraryID version : String) : Path :=
  Cache.getCacheDir libraryID version ++ ["content.txt.tmp"]

/-- Path of the temporary metadata file used by `SetWithVersion`. -/
def tmpMetadataPathOf (libraryID version : String) : Path :=
  Cache.getCacheDir libraryID version ++ ["metadata.json.tmp"]

theorem contentPath_ne_tmpContentPath (l v : String) :
    contentPathOf l v ≠ tmpContentPathOf l v := append_singleton_ne (by decide)

theorem contentPath_ne_metadataPath (l v : String) :
    contentPathOf l v ≠ metadataPathOf l v := append_singleton_ne (by decide)

theorem contentPath_ne_tmpMetadataPath (l v : String) :
    contentPathOf l v ≠ tmpMetadataPathOf l v := append_singleton_ne (by decide)

theorem metadataPath_ne_tmpContentPath (l v : String) :
    metadataPathOf l v ≠ tmpContentPathOf l v := append_singleton_ne (by decide)

theorem metadataPath_ne_tmpMetadataPath (l v : String) :
    metadataPathOf l v ≠ tmpMetadataPathOf l v := append_singleton_ne (by decide)

theorem tmpContentPath_ne_tmpMetadataPath (l v : String) :
    tmpContentPathOf l v ≠ tmpMetadataPathOf l v := append_singleton_ne (by decide)

theorem tmpContentPath_ne_metadataPath (l v : String) :
    tmpContentPathOf l v ≠ metadataPathOf l v := append_singleton_ne (by decide)

theorem tmpContentPath_ne_contentPath (l v : String) :
    tmpContentPathOf l v ≠ contentPathOf l v := append_singleton_ne (by decide)

theorem tmpMetadataPath_ne_metadataPath (l v : String) :
    tmpMetadataPathOf l v ≠ metadataPathOf l v := append_singleton_ne (by decide)

theorem tmpMetadataPath_ne_contentPath (l v : String) :
    tmpMetadataPathOf l v ≠ contentPathOf l v := append_singleton_ne (by decide)

/-! ## Behaviour of `SetWithVersion` under the all-success oracle -/

theorem rename_writeFile_self (fs : FS) (src dst : Path) (f : FSFile) :
    (fs.writeFile src f).rename src dst = ((fs.writeFile src f).removeFileAt src).writeFile dst f :=
  rename_eq _ _ _ _ (findFile_writeFile_self _ _ _)

theorem setWithVersion_allOk_spec (fs : FS) (now : Int) (libraryID version content : String)
    (metadata : Metadata) :
    (Cache.setWithVersion fs now Cache.allOk libraryID version content metadata).2 = none ∧
    (Cache.setWithVersion fs now Cache.allOk libraryID version content metadata).1.findFile
        (contentPathOf libraryID version) = some ⟨.blob content, content.utf8ByteSize, now⟩ ∧
    (Cache.setWithVersion fs now Cache.allOk libraryID version content metadata).1.findFile
        (metadataPathOf libraryID version) =
      some ⟨.meta metadata, (encodeMetadata metadata).utf8ByteSize, now⟩ ∧
    (Cache.setWithVersion fs now Cache.allOk libraryID version content metadata).1.findFile
        (tmpContentPathOf libraryID version) = none ∧
    (Cache.setWithVersion fs now Cache.allOk libraryID version content metadata).1.findFile
        (tmpMetadataPathOf libraryID version) = none := by
  have h1 : Cache.setWithVersion fs now Cache.allOk libraryID version content metadata =
      ((((((((fs.mkdirAll (Cache.getCacheDir libraryID version)).writeFile
            (tmpContentPathOf libraryID version)
            ⟨.blob content, content.utf8ByteSize, now⟩).removeFileAt
            (tmpContentPathOf libraryID version)).writeFile (contentPathOf libraryID version)
            ⟨.blob content, content.utf8ByteSize, now⟩).writeFile
            (tmpMetadataPathOf libraryID version) ⟨.blob "", 0, now⟩).writeFile
            (tmpMetadataPathOf libraryID version)
            ⟨.meta metadata, (encodeMetadata metadata).utf8ByteSize, now⟩).removeFileAt
            (tmpMetadataPathOf libraryID version)).writeFile (metadataPathOf libraryID version)
            ⟨.meta metadata, (encodeMetadata metadata).utf8ByteSize, now⟩, none) := by
    simp only [Cache.setWithVersion, Cache.allOk, contentPathOf, metadataPathOf,
      tmpContentPathOf, tmpMetadataPathOf, Bool.not_true, Bool.false_eq_true, if_false,
      rename_writeFile_self]
  rw [h1]
  refine ⟨rfl, ?_, ?_, ?_, ?_⟩
  · rw [findFile_writeFile_ne _ _ _ _ (contentPath_ne_metadataPath libraryID version),
        findFile_removeFileAt_ne _ _ _ (contentPath_ne_tmpMetadataPath libraryID version),
        findFile_writeFile_ne _ _ _ _ (contentPath_ne_tmpMetadataPath libraryID version),
        findFile_writeFile_ne _ _ _ _ (contentPath_ne_tmpMetadataPath libraryID version),
        findFile_writeFile_self]
  · rw [findFile_writeFile_self]
  · rw [findFile_writeFile_ne _ _ _ _ (tmpContentPath_ne_metadataPath libraryID version),
        findFile_removeFileAt_ne _ _ _ (tmpContentPath_ne_tmpMetadataPath libraryID version),
        findFile_writeFile_ne _ _ _ _ (tmpContentPath_ne_tmpMetadataPath libraryID version),
        findFile_writeFile_ne _ _ _ _ (tmpContentPath_ne_tmpMetadataPath libraryID version),
        findFile_writeFile_ne _ _ _ _ (tmpContentPath_ne_contentPath libraryID version),
        findFile_removeFileAt_self]
  · rw [findFile_writeFile_ne _ _ _ _ (tmpMetadataPath_ne_metadataPath libraryID version),
        findFile_removeFileAt_self]

end Ctx7

namespace Ctx7

/-! ## Sample data used by witnesses and counterexamples -/

/-- A sample metadata record for version 1.0 of `/acme/widgets`. -/
def mdA : Metadata := ⟨"/acme/widgets", "Widgets", "1.0", 50, "2024-01-01", 100, 5, 10, 9, ["1.0"]⟩

/-- A sample metadata record for version 2.0 of `/acme/widgets`. -/
def mdB : Metadata :=
  ⟨"/acme/widgets", "Widgets", "2.0", 900, "2024-06-01", 200, 8, 12, 9, ["1.0", "2.0"]⟩

/-- Cache state with one committed entry for `/acme/widgets@1.0` (content
`"old"`). -/
def fsCommitted : FS :=
  ⟨pathPrefixes ["libraries", "acme", "widgets", "1.0"],
   [(["libraries", "acme", "widgets", "1.0", "content.txt"], ⟨.blob "old", 3, 1⟩),
    (["libraries", "acme", "widgets", "1.0", "metadata.json"], ⟨.meta mdA, 10, 1⟩)]⟩

/-! ## Claim C2: write followed by read round-trips -/

/-- C2 (confirmed): for every library identifier, version, content string and
metadata record, a successful `SetWithVersion` followed immediately by
`GetWithVersion` with a sufficiently large `maxAge` (read at a time `now2` with
`now2 - metadata.fetchedAt ≤ maxAge`) succeeds and returns content and
metadata identical to what was written. -/
theorem setWithVersion_getWithVersion_roundTrip (fs : FS) (now now2 : Int)
    (libraryID version content : String) (metadata : Metadata) (maxAge : Int)
    (hfresh : now2 - metadata.fetchedAt ≤ maxAge) :
    Cache.getWithVersion (Cache.setWithVersion fs now Cache.allOk libraryID version content
      metadata).1 now2 libraryID version maxAge = .ok ⟨metadata, content⟩ := by
  obtain ⟨-, hcp, hmp, -, -⟩ :=
    setWithVersion_allOk_spec fs now libraryID version content metadata
  simp only [contentPathOf, metadataPathOf] at hcp hmp
  simp only [Cache.getWithVersion]
  rw [hmp]
  simp [not_lt.mpr hfresh, hcp, FileData.bytes]

/-- Witness for C2 at a concrete input. -/
theorem setWithVersion_getWithVersion_roundTrip_witness :
    (100 - mdA.fetchedAt ≤ (1000 : Int)) ∧
    Cache.getWithVersion (Cache.setWithVersion ⟨[], []⟩ 100 Cache.allOk "/acme/widgets" "1.0"
      "hello" mdA).1 100 "/acme/widgets" "1.0" 1000 = .ok ⟨mdA, "hello"⟩ :=
  ⟨by decide,
   setWithVersion_getWithVersion_roundTrip ⟨[], []⟩ 100 100 "/acme/widgets" "1.0" "hello" mdA
     1000 (by decide)⟩

/-! ## Claim C3: read returns the entry exactly when present, decodable and fresh -/

/-- Whether the entry for `(libraryID, version)` is present, decodable, fresh
at `now` for `maxAge`, and has readable content. -/
def readable (fs : FS) (now : Int) (libraryID version : String) (maxAge : Int) : Bool :=
  match fs.findFile (metadataPathOf libraryID version) with
  | some mf =>
    match mf.data with
    | .meta m =>
      decide (now - m.fetchedAt ≤ maxAge) &&
        (fs.findFile (contentPathOf libraryID version)).isSome
    | .blob _ => false
  | none => false

/-- C3 (confirmed): `GetWithVersion` succeeds exactly when the entry exists,
its metadata decodes, its fetch timestamp is within `maxAge` of now, and its
content is readable; in every other case it fails (with one of the four
miss-class errors `GetErr`, the specification's CacheMiss class), and a
successful read returns exactly the stored metadata and the stored content
bytes — never a partial entry. -/
theorem getWithVersion_characterization (fs : FS) (now : Int) (libraryID version : String)
    (maxAge : Int) :
    ((Cache.getWithVersion fs now libraryID version maxAge).isOk =
      readable fs now libraryID version maxAge) ∧
    (∀ m s, Cache.getWithVersion fs now libraryID version maxAge = .ok ⟨m, s⟩ →
      ∃ mf, fs.findFile (metadataPathOf libraryID version) = some mf ∧ mf.data = .meta m ∧
        now - m.fetchedAt ≤ maxAge ∧
        ∃ cf, fs.findFile (contentPathOf libraryID version) = some cf ∧ s = cf.data.bytes) := by
  simp only [Cache.getWithVersion, readable, metadataPathOf, contentPathOf]
  cases hm : fs.findFile (Cache.getCacheDir libraryID version ++ ["metadata.json"]) with
  | none => simp [Except.isOk, Except.toBool]
  | some mf =>
    dsimp only
    cases hdata : mf.data with
    | blob s => simp [Except.isOk, Except.toBool]
    | meta md =>
      dsimp only
      by_cases hage : now - md.fetchedAt > maxAge
      · refine ⟨by simp [if_pos hage, Except.isOk, Except.toBool, not_le.mpr hage], ?_⟩
        intro m s h
        rw [if_pos hage] at h
        cases h
      · rw [if_neg hage]
        cases hc : fs.findFile (Cache.getCacheDir libraryID version ++ ["content.txt"]) with
        | none =>
          refine ⟨by simp [Except.isOk, Except.toBool], ?_⟩
          intro m s h
          cases h
        | some cf =>
          refine ⟨by simp [Except.isOk, Except.toBool, not_lt.mp hage], ?_⟩
          intro m s h
          obtain ⟨h1, h2⟩ : md = m ∧ cf.data.bytes = s := by
            cases h
            exact ⟨rfl, rfl⟩
          exact ⟨mf, rfl, h1 ▸ hdata, h1 ▸ not_lt.mp hage, cf, rfl, h2.symm⟩

/-- Witness for C3 at a concrete input: a present, fresh entry is readable and
the read succeeds. -/
theorem getWithVersion_characterization_witness :
    (Cache.getWithVersion fsCommitted 60 "/acme/widgets" "1.0" 1000).isOk = true :=
  ((getWithVersion_characterization fsCommitted 60 "/acme/widgets" "1.0" 1000).1).trans
    (by decide)

/-! ## Claim C10: a missing libraries directory yields an empty catalog -/

/-- C10 (confirmed): when nothing exists at the `libraries` path under the
cache root, `ListCachedLibraries` returns an empty list and no error. -/
theorem listCachedLibraries_missingDir (fs : FS)
    (h : fs.statExists ["libraries"] = false) :
    Cache.listCachedLibraries fs = .ok [] := by
  simp [Cache.listCachedLibraries, h]

/-- Witness for C10: the empty filesystem has no `libraries` directory and the
scan returns an empty catalog without error. -/
theorem listCachedLibraries_missingDir_witness :
    (FS.statExists ⟨[], []⟩ ["libraries"] = false) ∧
    Cache.listCachedLibraries ⟨[], []⟩ = .ok [] :=
  ⟨rfl, listCachedLibraries_missingDir ⟨[], []⟩ rfl⟩

end Ctx7

namespace Ctx7

/-! ## Claim C6: identifier validation -/

/-- C6 counterexample: the claim says every cache operation on an identifier
that does not resolve to exactly two non-empty segments fails with an
InvalidIdentifier error.  But `SetWithVersion` performs no identifier
validation at all: a write under the single-segment identifier `"justone"`
succeeds (and creates `libraries/justone/default/`). -/
theorem setWithVersion_malformed_identifier_succeeds :
    (splitSlash (trimLeadingSlash "justone")).length = 1 ∧
    (Cache.setWithVersion ⟨[], []⟩ 0 Cache.allOk "justone" "" "c" mdA).2 = none := by
  constructor
  · decide
  · exact (setWithVersion_allOk_spec ⟨[], []⟩ 0 "justone" "" "c" mdA).1

/-- C6 (corrected): only `RemoveLibrary` validates the identifier — it fails
with InvalidIdentifier exactly when the identifier, after stripping one
leading separator, splits into fewer than two segments (empty segments and
extra segments are accepted).  `RemoveLibraryVersion` never reports
InvalidIdentifier, `SetWithVersion` succeeds for every identifier under the
all-success oracle, and `ForceUpdate` with an empty version delegates to
`RemoveLibrary` (hence inherits its check). -/
theorem identifier_validation (fs : FS) (libraryID : String) :
    (Cache.removeLibrary fs libraryID = .error .invalidId ↔
      (splitSlash (trimLeadingSlash libraryID)).length < 2) ∧
    (∀ version, Cache.removeLibraryVersion fs libraryID version ≠ .error .invalidId) ∧
    (∀ now version content metadata,
      (Cache.setWithVersion fs now Cache.allOk libraryID version content metadata).2 = none) ∧
    Cache.forceUpdate fs libraryID "" = Cache.removeLibrary fs libraryID := by
  refine ⟨?_, ?_, ?_, ?_⟩
  · cases hsplit : splitSlash (trimLeadingSlash libraryID) with
    | nil => simp [Cache.removeLibrary, hsplit]
    | cons o rest =>
      cases rest with
      | nil => simp [Cache.removeLibrary, hsplit]
      | cons l t =>
        simp only [Cache.removeLibrary, hsplit]
        constructor
        · intro h
          split at h
          · cases h
          · cases h
        · intro h
          simp at h
          omega
  · intro version
    simp only [Cache.removeLibraryVersion]
    split
    · intro h
      cases h
    · split
      · intro h
        cases h
      · intro h
        cases h
  · intro now version content metadata
    exact (setWithVersion_allOk_spec fs now libraryID version content metadata).1
  · rfl

/-- Witness for C6 at a concrete input: `RemoveLibrary` on a one-segment
identifier reports InvalidIdentifier. -/
theorem identifier_validation_witness :
    Cache.removeLibrary ⟨[], []⟩ "justone" = .error .invalidId :=
  (identifier_validation ⟨[], []⟩ "justone").1.mpr (by decide)

/-! ## Claim C1: the atomicity protocol of `SetWithVersion` -/

/-- C1 counterexample: the claim says that on any failure during write, encode
or rename the previously committed entry is left byte-for-byte untouched.  But
the content file is renamed into place before the metadata file is written, so
when encoding the metadata fails, the error is propagated while the
previously committed content (`"old"`) has already been replaced by the new
content (`"new"`). -/
theorem setWithVersion_encodeFailure_clobbers_content :
    (Cache.setWithVersion fsCommitted 99 ⟨true, .ok, true, true, false, true⟩
      "/acme/widgets" "1.0" "new" mdB).2 = some .encodeFail ∧
    (Cache.setWithVersion fsCommitted 99 ⟨true, .ok, true, true, false, true⟩
      "/acme/widgets" "1.0" "new" mdB).1.findFile
        (contentPathOf "/acme/widgets" "1.0") ≠
      fsCommitted.findFile (contentPathOf "/acme/widgets" "1.0") := by
  constructor
  · decide
  · decide

end Ctx7

namespace Ctx7

/-- Both committed files of the entry for `(libraryID, version)` are unchanged
between `fs` and `fs2`. -/
def entryUnchanged (fs2 fs : FS) (libraryID version : String) : Prop :=
  fs2.findFile (contentPathOf libraryID version) = fs.findFile (contentPathOf libraryID version) ∧
  fs2.findFile (metadataPathOf libraryID version) =
    fs.findFile (metadataPathOf libraryID version)

/-- C1 (corrected): the per-failure-point behaviour of `SetWithVersion`.
Content and metadata are each written to a temp file in the entry directory
and renamed into place.  A failure renaming either file or encoding the
metadata removes that temp file before propagating the error, but a failure
while writing the temp content file propagates the error without removing the
temp file.  Failures up to and including the content rename leave the
previously committed entry untouched; failures in the metadata phase (create,
encode, rename) leave the old metadata in place but the content file has
already been replaced by the new content. -/
theorem setWithVersion_failure_behaviour (fs : FS) (now : Int) (o : Cache.SetOracle)
    (libraryID version content : String) (metadata : Metadata) :
    ((Cache.setWithVersion fs now o libraryID version content metadata).2 =
        some .mkdirFail →
      (Cache.setWithVersion fs now o libraryID version content metadata).1 = fs) ∧
    ((Cache.setWithVersion fs now o libraryID version content metadata).2 =
        some .writeContentFail →
      entryUnchanged (Cache.setWithVersion fs now o libraryID version content metadata).1
        fs libraryID version) ∧
    ((Cache.setWithVersion fs now o libraryID version content metadata).2 =
        some .renameContentFail →
      entryUnchanged (Cache.setWithVersion fs now o libraryID version content metadata).1
        fs libraryID version ∧
      (Cache.setWithVersion fs now o libraryID version content metadata).1.findFile
        (tmpContentPathOf libraryID version) = none) ∧
    ((Cache.setWithVersion fs now o libraryID version content metadata).2 =
        some .createMetaFail →
      (Cache.setWithVersion fs now o libraryID version content metadata).1.findFile
          (metadataPathOf libraryID version) = fs.findFile (metadataPathOf libraryID version) ∧
      (Cache.setWithVersion fs now o libraryID version content metadata).1.findFile
          (contentPathOf libraryID version) =
        some ⟨.blob content, content.utf8ByteSize, now⟩ ∧
      (Cache.setWithVersion fs now o libraryID version content metadata).1.findFile
        (tmpContentPathOf libraryID version) = none) ∧
    ((Cache.setWithVersion fs now o libraryID version content metadata).2 =
        some .encodeFail →
      (Cache.setWithVersion fs now o libraryID version content metadata).1.findFile
          (metadataPathOf libraryID version) = fs.findFile (metadataPathOf libraryID version) ∧
      (Cache.setWithVersion fs now o libraryID version content metadata).1.findFile
          (contentPathOf libraryID version) =
        some ⟨.blob content, content.utf8ByteSize, now⟩ ∧
      (Cache.setWithVersion fs now o libraryID version content metadata).1.findFile
        (tmpContentPathOf libraryID version) = none ∧
      (Cache.setWithVersion fs now o libraryID version content metadata).1.findFile
        (tmpMetadataPathOf libraryID version) = none) ∧
    ((Cache.setWithVersion fs now o libraryID version content metadata).2 =
        some .renameMetaFail →
      (Cache.setWithVersion fs now o libraryID version content metadata).1.findFile
          (metadataPathOf libraryID version) = fs.findFile (metadataPathOf libraryID version) ∧
      (Cache.setWithVersion fs now o libraryID version content metadata).1.findFile
          (contentPathOf libraryID version) =
        some ⟨.blob content, content.utf8ByteSize, now⟩ ∧
      (Cache.setWithVersion fs now o libraryID version content metadata).1.findFile
        (tmpContentPathOf libraryID version) = none ∧
      (Cache.setWithVersion fs now o libraryID version content metadata).1.findFile
        (tmpMetadataPathOf libraryID version) = none) ∧
    ((Cache.setWithVersion fs now o libraryID version content metadata).2 = none →
      (Cache.setWithVersion fs now o libraryID version content metadata).1.findFile
          (contentPathOf libraryID version) =
        some ⟨.blob content, content.utf8ByteSize, now⟩ ∧
      (Cache.setWithVersion fs now o libraryID version content metadata).1.findFile
          (metadataPathOf libraryID version) =
        some ⟨.meta metadata, (encodeMetadata metadata).utf8ByteSize, now⟩ ∧
      (Cache.setWithVersion fs now o libraryID version content metadata).1.findFile
        (tmpContentPathOf libraryID version) = none ∧
      (Cache.setWithVersion fs now o libraryID version content metadata).1.findFile
        (tmpMetadataPathOf libraryID version) = none) := by
  obtain ⟨mk, wc, rc, cm, en, rm⟩ := o
  cases mk with
  | false =>
    have h1 : Cache.setWithVersion fs now ⟨false, wc, rc, cm, en, rm⟩
        libraryID version content metadata = (fs, some .mkdirFail) := by
      simp [Cache.setWithVersion]
    rw [h1]
    refine ⟨fun _ => rfl, ?_, ?_, ?_, ?_, ?_, ?_⟩ <;> (intro h; simp at h)
  | true =>
    cases wc with
    | failNoFile =>
      have h1 : Cache.setWithVersion fs now ⟨true, .failNoFile, rc, cm, en, rm⟩
          libraryID version content metadata =
          (fs.mkdirAll (Cache.getCacheDir libraryID version), some .writeContentFail) := by
        simp [Cache.setWithVersion]
      rw [h1]
      refine ⟨?_, fun _ => ⟨rfl, rfl⟩, ?_, ?_, ?_, ?_, ?_⟩ <;> (intro h; simp at h)
    | failShort k =>
      have h1 : Cache.setWithVersion fs now ⟨true, .failShort k, rc, cm, en, rm⟩
          libraryID version content metadata =
          ((fs.mkdirAll (Cache.getCacheDir libraryID version)).writeFile
            (tmpContentPathOf libraryID version)
            ⟨.blob (String.mk (content.data.take k)),
              (String.mk (content.data.take k)).utf8ByteSize, now⟩,
           some .writeContentFail) := by
        simp [Cache.setWithVersion, tmpContentPathOf]
      rw [h1]
      refine ⟨?_, fun _ => ⟨?_, ?_⟩, ?_, ?_, ?_, ?_, ?_⟩
      · intro h; simp at h
      · rw [findFile_writeFile_ne _ _ _ _ (contentPath_ne_tmpContentPath libraryID version)]
        rfl
      · rw [findFile_writeFile_ne _ _ _ _ (metadataPath_ne_tmpContentPath libraryID version)]
        rfl
      all_goals (intro h; simp at h)
    | ok =>
      cases rc with
      | false =>
        have h1 : Cache.setWithVersion fs now ⟨true, .ok, false, cm, en, rm⟩
            libraryID version content metadata =
            (((fs.mkdirAll (Cache.getCacheDir libraryID version)).writeFile
                (tmpContentPathOf libraryID version)
                ⟨.blob content, content.utf8ByteSize, now⟩).removeFileAt
              (tmpContentPathOf libraryID version),
             some .renameContentFail) := by
          simp [Cache.setWithVersion, tmpContentPathOf]
        rw [h1]
        refine ⟨?_, ?_, fun _ => ⟨⟨?_, ?_⟩, ?_⟩, ?_, ?_, ?_, ?_⟩
        · intro h; simp at h
        · intro h; simp at h
        · rw [findFile_removeFileAt_ne _ _ _ (contentPath_ne_tmpContentPath libraryID version),
              findFile_writeFile_ne _ _ _ _ (contentPath_ne_tmpContentPath libraryID version)]
          rfl
        · rw [findFile_removeFileAt_ne _ _ _ (metadataPath_ne_tmpContentPath libraryID version),
              findFile_writeFile_ne _ _ _ _ (metadataPath_ne_tmpContentPath libraryID version)]
          rfl
        · exact findFile_removeFileAt_self _ _
        all_goals (intro h; simp at h)
      | true =>
        cases cm with
        | false =>
          have h1 : Cache.setWithVersion fs now ⟨true, .ok, true, false, en, rm⟩
              libraryID version content metadata =
              ((((fs.mkdirAll (Cache.getCacheDir libraryID version)).writeFile
                  (tmpContentPathOf libraryID version)
                  ⟨.blob content, content.utf8ByteSize, now⟩).removeFileAt
                  (tmpContentPathOf libraryID version)).writeFile
                  (contentPathOf libraryID version)
                  ⟨.blob content, content.utf8ByteSize, now⟩,
               some .createMetaFail) := by
            simp [Cache.setWithVersion, tmpContentPathOf, contentPathOf, rename_writeFile_self]
          rw [h1]
          refine ⟨?_, ?_, ?_, fun _ => ⟨?_, ?_, ?_⟩, ?_, ?_, ?_⟩
          · intro h; simp at h
          · intro h; simp at h
          · intro h; simp at h
          · rw [findFile_writeFile_ne _ _ _ _
                  (Ne.symm (contentPath_ne_metadataPath libraryID version)),
                findFile_removeFileAt_ne _ _ _ (metadataPath_ne_tmpContentPath libraryID version),
                findFile_writeFile_ne _ _ _ _ (metadataPath_ne_tmpContentPath libraryID version)]
            rfl
          · exact findFile_writeFile_self _ _ _
          · rw [findFile_writeFile_ne _ _ _ _ (tmpContentPath_ne_contentPath libraryID version)]
            exact findFile_removeFileAt_self _ _
          all_goals (intro h; simp at h)
        | true =>
          cases en with
          | false =>
            have h1 : Cache.setWithVersion fs now ⟨true, .ok, true, true, false, rm⟩
                libraryID version content metadata =
                ((((((fs.mkdirAll (Cache.getCacheDir libraryID version)).writeFile
                    (tmpContentPathOf libraryID version)
                    ⟨.blob content, content.utf8ByteSize, now⟩).removeFileAt
                    (tmpContentPathOf libraryID version)).writeFile
                    (contentPathOf libraryID version)
                    ⟨.blob content, content.utf8ByteSize, now⟩).writeFile
                    (tmpMetadataPathOf libraryID version) ⟨.blob "", 0, now⟩).removeFileAt
                  (tmpMetadataPathOf libraryID version),
                 some .encodeFail) := by
              simp [Cache.setWithVersion, tmpContentPathOf, contentPathOf, tmpMetadataPathOf,
                rename_writeFile_self]
            rw [h1]
            refine ⟨?_, ?_, ?_, ?_, fun _ => ⟨?_, ?_, ?_, ?_⟩, ?_, ?_⟩
            · intro h; simp at h
            · intro h; simp at h
            · intro h; simp at h
            · intro h; simp at h
            · rw [findFile_removeFileAt_ne _ _ _
                    (metadataPath_ne_tmpMetadataPath libraryID version),
                  findFile_writeFile_ne _ _ _ _
                    (metadataPath_ne_tmpMetadataPath libraryID version),
                  findFile_writeFile_ne _ _ _ _
                    (Ne.symm (contentPath_ne_metadataPath libraryID version)),
                  findFile_removeFileAt_ne _ _ _
                    (metadataPath_ne_tmpContentPath libraryID version),
                  findFile_writeFile_ne _ _ _ _
                    (metadataPath_ne_tmpContentPath libraryID version)]
              rfl
            · rw [findFile_removeFileAt_ne _ _ _
                    (contentPath_ne_tmpMetadataPath libraryID version),
                  findFile_writeFile_ne _ _ _ _
                    (contentPath_ne_tmpMetadataPath libraryID version)]
              exact findFile_writeFile_self _ _ _
            · rw [findFile_removeFileAt_ne _ _ _
                    (tmpContentPath_ne_tmpMetadataPath libraryID version),
                  findFile_writeFile_ne _ _ _ _
                    (tmpContentPath_ne_tmpMetadataPath libraryID version),
                  findFile_writeFile_ne _ _ _ _
                    (tmpContentPath_ne_contentPath libraryID version)]
              exact findFile_removeFileAt_self _ _
            · exact findFile_removeFileAt_self _ _
            all_goals (intro h; simp at h)
          | true =>
            cases rm with
            | false =>
              have h1 : Cache.setWithVersion fs now ⟨true, .ok, true, true, true, false⟩
                  libraryID version content metadata =
                  (((((((fs.mkdirAll (Cache.getCacheDir libraryID version)).writeFile
                      (tmpContentPathOf libraryID version)
                      ⟨.blob content, content.utf8ByteSize, now⟩).removeFileAt
                      (tmpContentPathOf libraryID version)).writeFile
                      (contentPathOf libraryID version)
                      ⟨.blob content, content.utf8ByteSize, now⟩).writeFile
                      (tmpMetadataPathOf libraryID version) ⟨.blob "", 0, now⟩).writeFile
                      (tmpMetadataPathOf libraryID version)
                      ⟨.meta metadata, (encodeMetadata metadata).utf8ByteSize, now⟩).removeFileAt
                    (tmpMetadataPathOf libraryID version),
                   some .renameMetaFail) := by
                simp [Cache.setWithVersion, tmpContentPathOf, contentPathOf, tmpMetadataPathOf,
                  rename_writeFile_self]
              rw [h1]
              refine ⟨?_, ?_, ?_, ?_, ?_, fun _ => ⟨?_, ?_, ?_, ?_⟩, ?_⟩
              · intro h; simp at h
              · intro h; simp at h
              · intro h; simp at h
              · intro h; simp at h
              · intro h; simp at h
              · rw [findFile_removeFileAt_ne _ _ _
                      (metadataPath_ne_tmpMetadataPath libraryID version),
                    findFile_writeFile_ne _ _ _ _
                      (metadataPath_ne_tmpMetadataPath libraryID version),
                    findFile_writeFile_ne _ _ _ _
                      (metadataPath_ne_tmpMetadataPath libraryID version),
                    findFile_writeFile_ne _ _ _ _
                      (Ne.symm (contentPath_ne_metadataPath libraryID version)),
                    findFile_removeFileAt_ne _ _ _
                      (metadataPath_ne_tmpContentPath libraryID version),
                    findFile_writeFile_ne _ _ _ _
                      (metadataPath_ne_tmpContentPath libraryID version)]
                rfl
              · rw [findFile_removeFileAt_ne _ _ _
                      (contentPath_ne_tmpMetadataPath libraryID version),
                    findFile_writeFile_ne _ _ _ _
                      (contentPath_ne_tmpMetadataPath libraryID version),
                    findFile_writeFile_ne _ _ _ _
                      (contentPath_ne_tmpMetadataPath libraryID version)]
                exact findFile_writeFile_self _ _ _
              · rw [findFile_removeFileAt_ne _ _ _
                      (tmpContentPath_ne_tmpMetadataPath libraryID version),
                    findFile_writeFile_ne _ _ _ _
                      (tmpContentPath_ne_tmpMetadataPath libraryID version),
                    findFile_writeFile_ne _ _ _ _
                      (tmpContentPath_ne_tmpMetadataPath libraryID version),
                    findFile_writeFile_ne _ _ _ _
                      (tmpContentPath_ne_contentPath libraryID version)]
                exact findFile_removeFileAt_self _ _
              · exact findFile_removeFileAt_self _ _
              · intro h; simp at h
            | true =>
              obtain ⟨h0, h2, h3, h4, h5⟩ :=
                setWithVersion_allOk_spec fs now libraryID version content metadata
              simp only [Cache.allOk] at h0 h2 h3 h4 h5
              refine ⟨?_, ?_, ?_, ?_, ?_, ?_, fun _ => ⟨h2, h3, h4, h5⟩⟩ <;>
                (intro h; rw [h0] at h; cases h)

/-- Witness for C1's amended theorem at a concrete input: an encode failure
removes the temp metadata file, leaves the old metadata in place, and leaves
the new content already committed. -/
theorem setWithVersion_failure_behaviour_witness :
    (Cache.setWithVersion fsCommitted 99 ⟨true, .ok, true, true, false, true⟩
      "/acme/widgets" "1.0" "new" mdB).2 = some .encodeFail ∧
    (Cache.setWithVersion fsCommitted 99 ⟨true, .ok, true, true, false, true⟩
        "/acme/widgets" "1.0" "new" mdB).1.findFile
      (metadataPathOf "/acme/widgets" "1.0") =
      fsCommitted.findFile (metadataPathOf "/acme/widgets" "1.0") :=
  ⟨by decide,
   ((setWithVersion_failure_behaviour fsCommitted 99 ⟨true, .ok, true, true, false, true⟩
      "/acme/widgets" "1.0" "new" mdB).2.2.2.2.1 (by decide)).1⟩

end Ctx7

namespace Ctx7

/-! ## The catalog as a multiset of (library, version) records -/

/-- All (library identifier, version record) pairs of a catalog, in catalog
order. -/
def pairsOf (libs : List CachedLibrary) : List (String × VersionInfo) :=
  libs.flatMap (fun lib => lib.versions.map (fun v => (lib.libraryID, v)))

/-- The (library identifier, version record) pair of one walk record. -/
def recPair (r : Cache.WalkRec) : String × VersionInfo := (r.libID, r.vinfo)

/-- The walk-callback inclusion condition of `ListCachedLibraries`: the file
is named `metadata.json`, its metadata decodes, and it lies at least three
path segments below the libraries root (total path length at least 4). -/
def includedB (pf : Path × FSFile) : Bool :=
  (lastName pf.1 == "metadata.json") &&
    (match pf.2.data with
     | .meta _ => true
     | .blob _ => false) &&
    decide (4 ≤ pf.1.length)

/-- The size charged to one metadata file by the scan and by `GetStats`:
its own size plus the size of an adjacent `content.txt`, if any. -/
def entrySizeAt (fs : FS) (pf : Path × FSFile) : Nat :=
  pf.2.size +
    (match fs.findFile (pf.1.dropLast ++ ["content.txt"]) with
     | some cf => cf.size
     | none => 0)

/-- Total number of version records a catalog holds. -/
def catalogVersionCount (libs : List CachedLibrary) : Nat := (pairsOf libs).length

/-- Total size of all version records a catalog holds. -/
def catalogSizeSum (libs : List CachedLibrary) : Nat :=
  ((pairsOf libs).map (fun p => p.2.size)).sum

theorem insertSorted_perm (lt : α → α → Bool) (x : α) (l : List α) :
    List.Perm (insertSorted lt x l) (x :: l) := by
  induction l with
  | nil => exact List.Perm.refl _
  | cons y ys ih =>
    unfold insertSorted
    by_cases h : lt x y = true
    · simp [h]
    · simp only [h, if_false]
      exact (ih.cons y).trans (List.Perm.swap x y ys)

theorem sortBy_perm (lt : α → α → Bool) (l : List α) : List.Perm (sortBy lt l) l := by
  induction l with
  | nil => exact List.Perm.refl _
  | cons x xs ih => exact (insertSorted_perm lt x (sortBy lt xs)).trans (ih.cons x)

theorem pairsOf_cons (lib : CachedLibrary) (rest : List CachedLibrary) :
    pairsOf (lib :: rest) =
      lib.versions.map (fun v => (lib.libraryID, v)) ++ pairsOf rest := by
  simp [pairsOf]

theorem pairsOf_insertRec (cat : List CachedLibrary) (r : Cache.WalkRec) :
    List.Perm (pairsOf (Cache.insertRec cat r)) (recPair r :: pairsOf cat) := by
  induction cat with
  | nil =>
    simp [Cache.insertRec, pairsOf, recPair]
  | cons lib rest ih =>
    unfold Cache.insertRec
    by_cases h : lib.libraryID == r.libID
    · simp only [h, if_true]
      rw [pairsOf_cons, pairsOf_cons]
      simp only [List.map_append, List.map_cons, List.map_nil, List.append_assoc,
        List.singleton_append]
      have hid : lib.libraryID = r.libID := by simpa using h
      rw [hid]
      exact List.perm_middle
    · have hB : (lib.libraryID == r.libID) = false := by simpa using h
      simp only [hB, Bool.false_eq_true, if_false]
      rw [pairsOf_cons, pairsOf_cons]
      exact ((ih.append_left _).trans List.perm_middle)

theorem pairsOf_foldl_insertRec (recs : List Cache.WalkRec) :
    ∀ cat, List.Perm (pairsOf (recs.foldl Cache.insertRec cat))
      (pairsOf cat ++ recs.map recPair) := by
  induction recs with
  | nil => intro cat; simp
  | cons r rs ih =>
    intro cat
    have h1 := ih (Cache.insertRec cat r)
    have h2 := (pairsOf_insertRec cat r).append_right (rs.map recPair)
    simp only [List.foldl_cons, List.map_cons]
    exact (h1.trans h2).trans List.perm_middle.symm

theorem pairsOf_buildCat (recs : List Cache.WalkRec) :
    List.Perm (pairsOf (Cache.buildCat recs)) (recs.map recPair) := by
  have := pairsOf_foldl_insertRec recs []
  simpa [Cache.buildCat, pairsOf] using this

theorem pairsOf_map_sortVersions (libs : List CachedLibrary) :
    List.Perm
      (pairsOf (libs.map (fun lib => { lib with versions := sortBy Cache.versLt lib.versions })))
      (pairsOf libs) := by
  induction libs with
  | nil => exact List.Perm.refl _
  | cons lib rest ih =>
    simp only [List.map_cons]
    rw [pairsOf_cons, pairsOf_cons]
    exact ((sortBy_perm Cache.versLt lib.versions).map _).append ih

theorem pairsOf_perm_of_perm {libs1 libs2 : List CachedLibrary}
    (h : List.Perm libs1 libs2) : List.Perm (pairsOf libs1) (pairsOf libs2) :=
  h.flatMap_right _

/-- The catalog's records are a permutation of the records produced by the
walk callback over the visited files. -/
theorem catalog_pairs_perm (fs : FS) (hstat : fs.statExists ["libraries"] = true)
    (cat : List CachedLibrary) (hcat : Cache.listCachedLibraries fs = .ok cat) :
    List.Perm (pairsOf cat) ((fs.walkFiles.filterMap (Cache.mkRec fs)).map recPair) := by
  unfold Cache.listCachedLibraries at hcat
  rw [hstat] at hcat
  simp only [Bool.not_true, Bool.false_eq_true, if_false, Except.ok.injEq] at hcat
  subst hcat
  exact ((pairsOf_perm_of_perm (sortBy_perm Cache.libLt _)).trans
    (pairsOf_map_sortVersions _)).trans (pairsOf_buildCat _)

theorem mkRec_isSome (fs : FS) (pf : Path × FSFile) :
    (Cache.mkRec fs pf).isSome = includedB pf := by
  unfold Cache.mkRec includedB
  cases hname : (lastName pf.1 == "metadata.json") with
  | false => simp
  | true =>
    cases hdata : pf.2.data with
    | blob s => simp
    | meta m =>
      obtain ⟨p, f⟩ := pf
      cases p with
      | nil => simp [lastName] at hname
      | cons a rest =>
        simp only [List.drop_succ_cons, List.drop_zero, List.length_cons]
        cases rest with
        | nil => simp
        | cons b rest2 =>
          cases rest2 with
          | nil => simp
          | cons c rest3 =>
            cases rest3 with
            | nil => simp
            | cons d rest4 =>
              simp

theorem length_filterMap_isSome (l : List α) (g : α → Option β) :
    (l.filterMap g).length = (l.filter (fun x => (g x).isSome)).length := by
  induction l with
  | nil => rfl
  | cons x xs ih =>
    cases hx : g x with
    | none => simp [List.filterMap_cons, List.filter_cons, hx, ih]
    | some y => simp [List.filterMap_cons, List.filter_cons, hx, ih]

end Ctx7

namespace Ctx7

/-! ## Claims C7 and C8: statistics and catalog scan -/

theorem statsStep_totalSize (fs : FS) (st : CacheStats) (pf : Path × FSFile) :
    (Cache.statsStep fs st pf).totalSize =
      st.totalSize + (if lastName pf.1 == "metadata.json" then entrySizeAt fs pf else 0) := by
  unfold Cache.statsStep entrySizeAt
  cases hname : (lastName pf.1 == "metadata.json") with
  | false => simp
  | true =>
    cases hcf : fs.findFile (pf.1.dropLast ++ ["content.txt"]) with
    | none => simp [hcf]
    | some cf => simp [hcf, Nat.add_assoc]

theorem foldl_statsStep_totalSize (fs : FS) (l : List (Path × FSFile)) :
    ∀ st : CacheStats,
      (l.foldl (Cache.statsStep fs) st).totalSize =
        st.totalSize +
          ((l.filter (fun pf => lastName pf.1 == "metadata.json")).map (entrySizeAt fs)).sum := by
  induction l with
  | nil => intro st; simp
  | cons pf rest ih =>
    intro st
    rw [List.foldl_cons, ih, statsStep_totalSize]
    cases hname : (lastName pf.1 == "metadata.json") with
    | false => simp [List.filter_cons, hname]
    | true => simp [List.filter_cons, hname, Nat.add_assoc]

theorem mkRec_none_of_name (fs : FS) (pf : Path × FSFile)
    (h : (lastName pf.1 == "metadata.json") = false) : Cache.mkRec fs pf = none := by
  unfold Cache.mkRec
  simp [h]

theorem mkRec_some_size (fs : FS) (pf : Path × FSFile) (r : Cache.WalkRec)
    (h : Cache.mkRec fs pf = some r) : r.vinfo.size = entrySizeAt fs pf := by
  unfold Cache.mkRec at h
  cases hname : (lastName pf.1 == "metadata.json") with
  | false => rw [hname] at h; simp at h
  | true =>
    rw [hname] at h
    simp only [if_true] at h
    cases hdata : pf.2.data with
    | blob s => rw [hdata] at h; cases h
    | meta m =>
      rw [hdata] at h
      cases hdrop : pf.1.drop 1 with
      | nil => rw [hdrop] at h; cases h
      | cons o rest1 =>
        cases rest1 with
        | nil => rw [hdrop] at h; cases h
        | cons n rest2 =>
          cases rest2 with
          | nil => rw [hdrop] at h; cases h
          | cons v rest3 =>
            rw [hdrop] at h
            cases h
            rfl

theorem getStats_totalSize_spec (fs : FS) (now : Int) :
    ((Cache.getStats fs now).totalSize =
      ((fs.walkFiles.filter (fun pf => lastName pf.1 == "metadata.json")).map
        (entrySizeAt fs)).sum) ∧
    (fs.statExists ["libraries"] = true →
      fs.walkFiles.all (fun pf => !(lastName pf.1 == "metadata.json") || includedB pf) = true →
      ∀ cat, Cache.listCachedLibraries fs = .ok cat →
        (Cache.getStats fs now).totalSize = catalogSizeSum cat) := by
  have hbase : (Cache.getStats fs now).totalSize =
      ((fs.walkFiles.filter (fun pf => lastName pf.1 == "metadata.json")).map
        (entrySizeAt fs)).sum := by
    unfold Cache.getStats
    rw [foldl_statsStep_totalSize]
    simp
  refine ⟨hbase, fun hstat hinc cat hcat => ?_⟩
  have hperm := catalog_pairs_perm fs hstat cat hcat
  have hsum1 : catalogSizeSum cat =
      ((fs.walkFiles.filterMap (Cache.mkRec fs)).map (fun r => r.vinfo.size)).sum := by
    unfold catalogSizeSum
    rw [(hperm.map (fun p => p.2.size)).sum_eq, List.map_map]
    rfl
  rw [hbase, hsum1]
  have key : ∀ l : List (Path × FSFile),
      (∀ pf ∈ l, (!(lastName pf.1 == "metadata.json") || includedB pf) = true) →
      ((l.filter (fun pf => lastName pf.1 == "metadata.json")).map (entrySizeAt fs)).sum =
        ((l.filterMap (Cache.mkRec fs)).map (fun r => r.vinfo.size)).sum := by
    intro l
    induction l with
    | nil => intro _; rfl
    | cons pf rest ih =>
      intro hl
      have hrest := fun q hq => hl q (List.mem_cons_of_mem pf hq)
      cases hname : (lastName pf.1 == "metadata.json") with
      | false =>
        rw [List.filter_cons, List.filterMap_cons, mkRec_none_of_name fs pf hname]
        simp only [hname, Bool.false_eq_true, if_false]
        exact ih hrest
      | true =>
        have hincpf : includedB pf = true := by
          have := hl pf (List.mem_cons_self pf rest)
          rw [hname] at this
          simpa using this
        cases hr : Cache.mkRec fs pf with
        | none =>
          have := mkRec_isSome fs pf
          rw [hr, hincpf] at this
          cases this
        | some r =>
          rw [List.filter_cons, List.filterMap_cons, hr]
          simp only [hname, if_true, List.map_cons, List.sum_cons]
          rw [ih hrest, mkRec_some_size fs pf r hr]
  exact key fs.walkFiles (by
    intro pf hpf
    exact List.all_eq_true.mp hinc pf hpf)

/-- Catalog of `fsTwoEntries` (two well-formed entries of one library). -/
def fsTwoEntries : FS :=
  ⟨pathPrefixes ["libraries", "acme", "widgets", "1.0"] ++
     pathPrefixes ["libraries", "acme", "widgets", "2.0"],
   [(["libraries", "acme", "widgets", "1.0", "metadata.json"], ⟨.meta mdA, 10, 50⟩),
    (["libraries", "acme", "widgets", "1.0", "content.txt"], ⟨.blob "c1", 2, 50⟩),
    (["libraries", "acme", "widgets", "2.0", "metadata.json"], ⟨.meta mdB, 12, 900⟩)]⟩

/-- The catalog the scan derives from `fsTwoEntries`. -/
def catTwoEntries : List CachedLibrary :=
  [⟨"/acme/widgets", "acme", "widgets",
    [⟨"1.0", false, 12, 50, mdA⟩, ⟨"2.0", false, 12, 900, mdB⟩]⟩]

/-- Witness for C7's amended theorem at a concrete well-formed input. -/
theorem getStats_totalSize_spec_witness :
    (Cache.getStats fsTwoEntries 0).totalSize = catalogSizeSum catTwoEntries :=
  (getStats_totalSize_spec fsTwoEntries 0).2 (by decide) (by decide) catTwoEntries (by decide)

/-- Cache state with one decodable entry (sizes 10 + 0) and one corrupted
metadata file (size 7). -/
def fsCorrupt : FS :=
  ⟨pathPrefixes ["libraries", "acme", "widgets", "1.0"] ++
     pathPrefixes ["libraries", "bad", "x", "y"],
   [(["libraries", "acme", "widgets", "1.0", "metadata.json"], ⟨.meta mdA, 10, 5⟩),
    (["libraries", "bad", "x", "y", "metadata.json"], ⟨.blob "not json", 7, 5⟩)]⟩

/-- The catalog the scan derives from `fsCorrupt`: the corrupted entry is
skipped. -/
def catCorrupt : List CachedLibrary :=
  [⟨"/acme/widgets", "acme", "widgets", [⟨"1.0", false, 10, 50, mdA⟩]⟩]

/-- C7 counterexample: `GetStats` counts the corrupted metadata file that
`ListCachedLibraries` skips, so the reported total size (17) differs from the
sum of the sizes of the entries the catalog reports (10). -/
theorem getStats_counts_what_catalog_skips :
    Cache.listCachedLibraries fsCorrupt = .ok catCorrupt ∧
    (Cache.getStats fsCorrupt 0).totalSize ≠ catalogSizeSum catCorrupt := by
  constructor
  · decide
  · decide

/-- C8 (corrected): a `metadata.json` file contributes a catalog record if and
only if it is decodable and lies at least three path segments below the
libraries root (third segment read as the version); only shallower files are
skipped as structurally invalid — deeper files are included, not skipped. -/
theorem listCachedLibraries_depth_rule (fs : FS) :
    (∀ pf : Path × FSFile, (Cache.mkRec fs pf).isSome = includedB pf) ∧
    (fs.statExists ["libraries"] = true →
      ∀ cat, Cache.listCachedLibraries fs = .ok cat →
        catalogVersionCount cat = (fs.walkFiles.filter includedB).length) := by
  refine ⟨mkRec_isSome fs, fun hstat cat hcat => ?_⟩
  have hperm := catalog_pairs_perm fs hstat cat hcat
  unfold catalogVersionCount
  rw [hperm.length_eq, List.length_map, length_filterMap_isSome,
    List.filter_congr (fun pf _ => mkRec_isSome fs pf)]

/-- Cache state whose only metadata file lies two path segments below the
libraries root (at `libraries/a/b/metadata.json`). -/
def fsShallow : FS :=
  ⟨pathPrefixes ["libraries", "a", "b"],
   [(["libraries", "a", "b", "metadata.json"], ⟨.meta mdA, 10, 5⟩)]⟩

/-- C8 counterexample: the claim says only files exactly three segments below
the libraries root are catalogued and all others are skipped.  But a metadata
file at `libraries/a/b/metadata.json` — two segments below the root — is
included, with the literal file name `metadata.json` taken as its version. -/
theorem shallow_metadata_included :
    Cache.listCachedLibraries fsShallow =
      .ok [⟨"/a/b", "a", "b", [⟨"metadata.json", false, 10, 50, mdA⟩]⟩] := by
  decide

/-- Witness for C8's amended theorem at a concrete input. -/
theorem listCachedLibraries_depth_rule_witness :
    catalogVersionCount [⟨"/a/b", "a", "b", [⟨"metadata.json", false, 10, 50, mdA⟩]⟩] =
      (fsShallow.walkFiles.filter includedB).length :=
  (listCachedLibraries_depth_rule fsShallow).2 (by decide)
    [⟨"/a/b", "a", "b", [⟨"metadata.json", false, 10, 50, mdA⟩]⟩] (by decide)

end Ctx7

namespace Ctx7

/-! ## Prune: selection, labels and target directories -/

/-- The keep-latest exemption and age test of `Prune` for one
(library identifier, version record) pair: `true` when the record is selected
for removal. -/
def selectedB (kl : Bool) (ma now : Int) (latest : List (String × String))
    (p : String × VersionInfo) : Bool :=
  !(kl && (Cache.lookupD latest p.1 == p.2.version)) && decide (now - p.2.fetchedAt > ma)

/-- The report-only effect of `Prune`'s inner loop on one record. -/
def dryStep (kl : Bool) (ma now : Int) (latest : List (String × String))
    (res : PruneResult) (p : String × VersionInfo) : PruneResult :=
  if kl && (Cache.lookupD latest p.1 == p.2.version) then res
  else if now - p.2.fetchedAt > ma then
    ⟨res.removedCount + 1, res.freedSpace + p.2.size,
     res.removedItems ++ [p.1 ++ "@" ++ p.2.version]⟩
  else res

/-- The version directory `RemoveLibraryVersion` would delete for one record. -/
def dirOfPair (p : String × VersionInfo) : Path :=
  Cache.getCacheDir (trimLeadingSlash p.1) p.2.version

/-- A path segment as it can actually occur on disk: non-empty and free of the
path separator. -/
def segOk (s : String) : Bool := !(s == "") && !(s.data.contains '/')

/-- A record pair in the canonical shape the catalog derives from a well-laid-
out entry: identifier `/org/name` with on-disk segments, non-empty version. -/
def GoodPair (p : String × VersionInfo) : Prop :=
  ∃ o n, p.1 = "/" ++ o ++ "/" ++ n ∧ segOk o = true ∧ segOk n = true ∧
    segOk p.2.version = true

/-- The path of a committed metadata file in the well-formed layout. -/
def properEntryPath : Path → Bool
  | "libraries" :: o :: n :: v :: ["metadata.json"] => segOk o && segOk n && segOk v
  | _ => false

/-- Every `metadata.json` below the libraries root sits at
`libraries/org/name/version/metadata.json` with real path segments. -/
def properLayout (fs : FS) : Bool :=
  fs.files.all (fun pf =>
    !(["libraries"].isPrefixOf pf.1 && (lastName pf.1 == "metadata.json")) ||
      properEntryPath pf.1)

/-- No duplicate paths in a path list. -/
def nodupPaths : List Path → Bool
  | [] => true
  | p :: rest => !(rest.contains p) && nodupPaths rest

/-- A filesystem state a real filesystem can be in: file paths are unique and
every file's parent directory exists. -/
def wellFormed (fs : FS) : Bool :=
  nodupPaths (fs.files.map Prod.fst) &&
    fs.files.all (fun pf => (pf.1.dropLast == []) || fs.dirs.contains pf.1.dropLast)

theorem nodupPaths_iff (l : List Path) : nodupPaths l = true ↔ l.Nodup := by
  induction l with
  | nil => simp [nodupPaths]
  | cons p rest ih => simp [nodupPaths, ih, List.contains]

theorem segOk_spec (s : String) (h : segOk s = true) : s ≠ "" ∧ '/' ∉ s.data := by
  unfold segOk at h
  simp only [Bool.and_eq_true, Bool.not_eq_true'] at h
  refine ⟨by simpa using h.1, fun hc => ?_⟩
  have h2 : s.data.contains '/' = true := List.elem_eq_true_of_mem hc
  rw [h2] at h
  simp at h

/-! ## Computing the cache directory of a well-shaped identifier -/

theorem charSplit_cons_ne (c : Char) (cs : List Char) (hc : c ≠ '/') :
    charSplit (c :: cs) = consHead c (charSplit cs) := by
  rw [charSplit.eq_def]
  simp [hc]

theorem charSplit_slashfree (l : List Char) (h : '/' ∉ l) : charSplit l = [l] := by
  induction l with
  | nil => rfl
  | cons c cs ih =>
    have hc : c ≠ '/' := fun hcc => h (hcc ▸ List.mem_cons_self c cs)
    have hcs : '/' ∉ cs := fun hm => h (List.mem_cons_of_mem c hm)
    rw [charSplit_cons_ne c cs hc, ih hcs]
    rfl

theorem charSplit_append (l : List Char) (h : '/' ∉ l) (rest : List Char) :
    charSplit (l ++ '/' :: rest) = l :: charSplit rest := by
  induction l with
  | nil => simp [charSplit]
  | cons c cs ih =>
    have hc : c ≠ '/' := fun hcc => h (hcc ▸ List.mem_cons_self c cs)
    have hcs : '/' ∉ cs := fun hm => h (List.mem_cons_of_mem c hm)
    simp only [List.cons_append]
    rw [charSplit_cons_ne c _ hc, ih hcs]
    rfl

theorem stringMk_data (s : String) : String.mk s.data = s := rfl

theorem data_slash_append (o n : String) :
    ("/" ++ o ++ "/" ++ n).data = '/' :: (o.data ++ '/' :: n.data) := by
  simp [String.data_append]

theorem data_append_slash (o n : String) :
    (o ++ "/" ++ n).data = o.data ++ '/' :: n.data := by
  simp [String.data_append]

theorem trimLeadingSlash_slash_id (o n : String) :
    trimLeadingSlash ("/" ++ o ++ "/" ++ n) = o ++ "/" ++ n := by
  unfold trimLeadingSlash
  rw [data_slash_append]
  show String.mk (o.data ++ '/' :: n.data) = o ++ "/" ++ n
  rw [← data_append_slash, stringMk_data]

theorem trimLeadingSlash_noSlash (s : String) (_hne : s ≠ "") (hs : '/' ∉ s.data) :
    trimLeadingSlash s = s := by
  unfold trimLeadingSlash
  cases hd : s.data with
  | nil => rfl
  | cons c rest =>
    have hc : c ≠ '/' := fun hc => hs (by rw [hd, hc]; exact List.mem_cons_self _ _)
    simp [hc]

theorem splitSlash_two (o n : String) (ho : '/' ∉ o.data) (hn : '/' ∉ n.data) :
    splitSlash (o ++ "/" ++ n) = [o, n] := by
  unfold splitSlash
  rw [data_append_slash, charSplit_append o.data ho, charSplit_slashfree n.data hn]
  simp [stringMk_data]

theorem string_eq_empty_of_data (o : String) (hd : o.data = []) : o = "" := by
  rw [← stringMk_data o, hd]

theorem trimLeadingSlash_two (o n : String) (ho : segOk o = true) :
    trimLeadingSlash (o ++ "/" ++ n) = o ++ "/" ++ n := by
  obtain ⟨hne, hsl⟩ := segOk_spec o ho
  unfold trimLeadingSlash
  rw [data_append_slash]
  cases hd : o.data with
  | nil => exact absurd (string_eq_empty_of_data o hd) hne
  | cons c rest =>
    have hc : c ≠ '/' := fun hcc => hsl (by rw [hd, hcc]; exact List.mem_cons_self _ _)
    simp [hc]

theorem getCacheDir_good (o n v : String) (ho : segOk o = true) (hn : segOk n = true)
    (hv : segOk v = true) :
    Cache.getCacheDir (o ++ "/" ++ n) v = ["libraries", o, n, v] := by
  obtain ⟨hone, hosl⟩ := segOk_spec o ho
  obtain ⟨hnne, hnsl⟩ := segOk_spec n hn
  obtain ⟨hvne, hvsl⟩ := segOk_spec v hv
  unfold Cache.getCacheDir
  rw [trimLeadingSlash_two o n ho, splitSlash_two o n hosl hnsl]
  have hveq : (if (v == "") = true then "default" else v) = v := by
    have : (v == "") = false := by simpa using hvne
    rw [this]
    simp
  simp only [hveq]
  unfold joinClean
  have h1 : (("libraries" : String) == "") = false := by decide
  have h2 : (o == "") = false := by simpa using hone
  have h3 : (n == "") = false := by simpa using hnne
  have h4 : (v == "") = false := by simpa using hvne
  simp [List.filter_cons, h1, h2, h3, h4]

theorem dirOfPair_good (p : String × VersionInfo) (o n : String)
    (hp : p.1 = "/" ++ o ++ "/" ++ n) (ho : segOk o = true) (hn : segOk n = true)
    (hv : segOk p.2.version = true) :
    dirOfPair p = ["libraries", o, n, p.2.version] := by
  unfold dirOfPair
  rw [hp, trimLeadingSlash_slash_id, getCacheDir_good o n p.2.version ho hn hv]

end Ctx7

namespace Ctx7

/-! ## Claim C9: internal consistency of the prune report -/

/-- The `identifier@version` label `Prune` reports for a removed record. -/
def pairLabel (p : String × VersionInfo) : String := p.1 ++ "@" ++ p.2.version

/-- The report of `acc2` extends the report of `acc` by exactly the records
`recs`: their labels, their sizes and their number. -/
def Delta (acc acc2 : PruneResult × FS) (recs : List (String × VersionInfo)) : Prop :=
  acc2.1.removedItems = acc.1.removedItems ++ recs.map pairLabel ∧
  acc2.1.freedSpace = acc.1.freedSpace + (recs.map (fun p => p.2.size)).sum ∧
  acc2.1.removedCount = acc.1.removedCount + recs.length

theorem pruneStep_delta (opts : PruneOptions) (now : Int) (latest : List (String × String))
    (libID : String) (acc : PruneResult × FS) (v : VersionInfo) :
    ∃ recs, Delta acc (Cache.pruneStep opts now latest libID acc v) recs := by
  unfold Cache.pruneStep
  by_cases h1 : (opts.keepLatest && (Cache.lookupD latest libID == v.version)) = true
  · rw [if_pos h1]
    exact ⟨[], by simp [Delta]⟩
  · rw [if_neg h1]
    by_cases h2 : now - v.fetchedAt > opts.maxAge
    · rw [if_pos h2]
      by_cases h3 : opts.dryRun = true
      · rw [if_pos h3]
        exact ⟨[(libID, v)], by simp [Delta, pairLabel]⟩
      · rw [if_neg h3]
        cases hrm : Cache.removeLibraryVersion acc.2 libID v.version with
        | error e => exact ⟨[], by simp [Delta]⟩
        | ok fs3 => exact ⟨[(libID, v)], by simp [Delta, pairLabel]⟩
    · rw [if_neg h2]
      exact ⟨[], by simp [Delta]⟩

theorem foldl_delta {β : Type} (g : PruneResult × FS → β → PruneResult × FS)
    (hg : ∀ acc b, ∃ recs, Delta acc (g acc b) recs) :
    ∀ (l : List β) (acc : PruneResult × FS), ∃ recs, Delta acc (l.foldl g acc) recs := by
  intro l
  induction l with
  | nil => intro acc; exact ⟨[], by simp [Delta]⟩
  | cons b bs ih =>
    intro acc
    obtain ⟨r1, h1a, h1b, h1c⟩ := hg acc b
    obtain ⟨r2, h2a, h2b, h2c⟩ := ih (g acc b)
    refine ⟨r1 ++ r2, ?_, ?_, ?_⟩
    · rw [List.foldl_cons, h2a, h1a, List.map_append, List.append_assoc]
    · rw [List.foldl_cons, h2b, h1b, List.map_append, List.sum_append]
      omega
    · rw [List.foldl_cons, h2c, h1c, List.length_append]
      omega

/-- C9 (confirmed): every successful `Prune` returns an internally consistent
report: `RemovedCount` is the length of `RemovedItems`, and there is a list of
removed (library, version) records whose labels are exactly `RemovedItems`,
whose recorded sizes sum to `FreedSpace`, and whose number is
`RemovedCount`. -/
theorem prune_result_consistent (fs : FS) (now : Int) (opts : PruneOptions)
    (r : PruneResult) (fs2 : FS) (h : Cache.prune fs now opts = .ok (r, fs2)) :
    r.removedCount = r.removedItems.length ∧
    ∃ recs : List (String × VersionInfo),
      r.removedItems = recs.map pairLabel ∧
      r.freedSpace = (recs.map (fun p => p.2.size)).sum ∧
      r.removedCount = recs.length := by
  unfold Cache.prune at h
  cases hl : Cache.listCachedLibraries fs with
  | error e => rw [hl] at h; cases h
  | ok libraries =>
    rw [hl] at h
    simp only [Except.ok.injEq] at h
    obtain ⟨recs, ha, hb, hc⟩ :=
      foldl_delta
        (fun acc lib => lib.versions.foldl
          (Cache.pruneStep opts now
            (if opts.keepLatest then Cache.buildLatest libraries else []) lib.libraryID) acc)
        (fun acc lib =>
          foldl_delta _
            (fun acc2 v => pruneStep_delta opts now
              (if opts.keepLatest then Cache.buildLatest libraries else []) lib.libraryID acc2 v)
            lib.versions acc)
        libraries (⟨0, 0, []⟩, fs)
    rw [h] at ha hb hc
    simp only at ha hb hc
    rw [List.nil_append] at ha
    refine ⟨?_, recs, ha, by simpa using hb, by simpa using hc⟩
    rw [ha, List.length_map]
    omega

end Ctx7

namespace Ctx7

/-- Witness for C9 at a concrete input (a dry-run prune of two entries). -/
theorem prune_result_consistent_witness :
    (⟨1, 12, ["/acme/widgets@1.0"]⟩ : PruneResult).removedCount =
      (⟨1, 12, ["/acme/widgets@1.0"]⟩ : PruneResult).removedItems.length ∧
    ∃ recs : List (String × VersionInfo),
      (⟨1, 12, ["/acme/widgets@1.0"]⟩ : PruneResult).removedItems = recs.map pairLabel ∧
      (⟨1, 12, ["/acme/widgets@1.0"]⟩ : PruneResult).freedSpace =
        (recs.map (fun p => p.2.size)).sum ∧
      (⟨1, 12, ["/acme/widgets@1.0"]⟩ : PruneResult).removedCount = recs.length :=
  prune_result_consistent fsTwoEntries 1000 ⟨100, true, false⟩
    ⟨1, 12, ["/acme/widgets@1.0"]⟩ fsTwoEntries (by decide)

/-! ## Removing one well-laid-out version directory -/

theorem prefix_eq_of_length {p q : Path} (h : p <+: q) (hl : p.length = q.length) : p = q :=
  List.IsPrefix.eq_of_length h hl

/-- Successful removal of a well-shaped version directory: the call succeeds,
every other directory of entry depth survives, and every file outside the
removed subtree is untouched. -/
theorem removeLibraryVersion_ok (fs : FS) (o n v : String)
    (ho : segOk o = true) (hn : segOk n = true) (hv : segOk v = true)
    (hdir : ["libraries", o, n, v] ∈ fs.dirs) :
    ∃ fs2, Cache.removeLibraryVersion fs ("/" ++ o ++ "/" ++ n) v = .ok fs2 ∧
      (∀ q : Path, q ∈ fs.dirs → q.length = 4 → q ≠ ["libraries", o, n, v] → q ∈ fs2.dirs) ∧
      (∀ q : Path, ¬ (["libraries", o, n, v] <+: q) → fs2.findFile q = fs.findFile q) := by
  obtain ⟨hone, hosl⟩ := segOk_spec o ho
  obtain ⟨hnne, hnsl⟩ := segOk_spec n hn
  have hjoin3 : joinClean ["libraries", o, n] = ["libraries", o, n] := by
    have h2 : (o == "") = false := by simpa using hone
    have h3 : (n == "") = false := by simpa using hnne
    simp [joinClean, List.filter_cons, h2, h3]
  have hjoin2 : joinClean ["libraries", o] = ["libraries", o] := by
    have h2 : (o == "") = false := by simpa using hone
    simp [joinClean, List.filter_cons, h2]
  simp only [Cache.removeLibraryVersion]
  rw [trimLeadingSlash_slash_id, getCacheDir_good o n v ho hn hv,
    statExists_of_mem_dirs fs _ hdir, splitSlash_two o n hosl hnsl]
  simp only [Bool.not_true, Bool.false_eq_true, if_false, hjoin3, hjoin2]
  set fs1 := fs.removeAll ["libraries", o, n, v] with hfs1
  have hdirpres : ∀ q : Path, q ∈ fs.dirs → q.length = 4 → q ≠ ["libraries", o, n, v] →
      q ∈ fs1.dirs := by
    intro q hq hlen hne
    refine mem_dirs_removeAll fs _ q hq (fun hpre => ?_)
    exact hne (prefix_eq_of_length hpre (by simp [hlen])).symm
  have hfilepres : ∀ q : Path, ¬ (["libraries", o, n, v] <+: q) →
      fs1.findFile q = fs.findFile q := fun q hq =>
    findFile_removeAll_of_not_prefix fs _ q hq
  refine ⟨_, rfl, ?_, ?_⟩
  · intro q hq hlen hne
    have h1 : q ∈ fs1.dirs := hdirpres q hq hlen hne
    have hne3 : q ≠ ["libraries", o, n] := fun hc => by rw [hc] at hlen; simp at hlen
    have hne2 : q ≠ ["libraries", o] := fun hc => by rw [hc] at hlen; simp at hlen
    split
    · split
      · exact mem_dirs_removeDir _ _ q (mem_dirs_removeDir _ _ q h1 hne3) hne2
      · exact mem_dirs_removeDir _ _ q h1 hne3
    · exact h1
  · intro q hq
    have h1 : fs1.findFile q = fs.findFile q := hfilepres q hq
    split
    · split
      · rw [findFile_removeDir, findFile_removeDir]
        exact h1
      · rw [findFile_removeDir]
        exact h1
    · exact h1

end Ctx7

namespace Ctx7

/-! ## The prune loop over flattened (library, version) records -/

/-- One inner-loop step of `Prune`, over a flattened record pair. -/
def flatStep (opts : PruneOptions) (now : Int) (latest : List (String × String))
    (acc : PruneResult × FS) (p : String × VersionInfo) : PruneResult × FS :=
  Cache.pruneStep opts now latest p.1 acc p.2

theorem nested_foldl_eq_flat (opts : PruneOptions) (now : Int)
    (latest : List (String × String)) (libs : List CachedLibrary) :
    ∀ acc : PruneResult × FS,
      libs.foldl (fun acc lib =>
        lib.versions.foldl (Cache.pruneStep opts now latest lib.libraryID) acc) acc =
      (pairsOf libs).foldl (flatStep opts now latest) acc := by
  induction libs with
  | nil => intro acc; rfl
  | cons lib rest ih =>
    intro acc
    rw [List.foldl_cons, pairsOf_cons, List.foldl_append, List.foldl_map, ih]
    rfl

theorem flatStep_dry (opts : PruneOptions) (now : Int) (latest : List (String × String))
    (acc : PruneResult × FS) (p : String × VersionInfo) (hdry : opts.dryRun = true) :
    flatStep opts now latest acc p =
      (dryStep opts.keepLatest opts.maxAge now latest acc.1 p, acc.2) := by
  obtain ⟨libID, v⟩ := p
  unfold flatStep Cache.pruneStep dryStep
  dsimp only
  by_cases h1 : (opts.keepLatest && (Cache.lookupD latest libID == v.version)) = true
  · rw [if_pos h1, if_pos h1]
  · rw [if_neg h1, if_neg h1]
    by_cases h2 : now - v.fetchedAt > opts.maxAge
    · rw [if_pos h2, if_pos h2, if_pos hdry]
    · rw [if_neg h2, if_neg h2]

theorem flatStep_not_selected (opts : PruneOptions) (now : Int)
    (latest : List (String × String)) (acc : PruneResult × FS) (p : String × VersionInfo)
    (h : selectedB opts.keepLatest opts.maxAge now latest p = false) :
    flatStep opts now latest acc p = acc := by
  obtain ⟨libID, v⟩ := p
  unfold flatStep Cache.pruneStep
  dsimp only
  by_cases h1 : (opts.keepLatest && (Cache.lookupD latest libID == v.version)) = true
  · rw [if_pos h1]
  · rw [if_neg h1]
    have h2 : ¬ (now - v.fetchedAt > opts.maxAge) := by
      unfold selectedB at h
      dsimp only at h
      have h1f : (opts.keepLatest && (Cache.lookupD latest libID == v.version)) = false := by
        simpa using h1
      rw [h1f] at h
      simpa using h
    rw [if_neg h2]

theorem dryStep_not_selected (kl : Bool) (ma now : Int) (latest : List (String × String))
    (res : PruneResult) (p : String × VersionInfo)
    (h : selectedB kl ma now latest p = false) :
    dryStep kl ma now latest res p = res := by
  unfold dryStep
  by_cases h1 : (kl && (Cache.lookupD latest p.1 == p.2.version)) = true
  · rw [if_pos h1]
  · rw [if_neg h1]
    have h2 : ¬ (now - p.2.fetchedAt > ma) := by
      unfold selectedB at h
      have h1f : (kl && (Cache.lookupD latest p.1 == p.2.version)) = false := by simpa using h1
      rw [h1f] at h
      simpa using h
    rw [if_neg h2]

theorem selectedB_spec (kl : Bool) (ma now : Int) (latest : List (String × String))
    (p : String × VersionInfo) (h : selectedB kl ma now latest p = true) :
    (kl && (Cache.lookupD latest p.1 == p.2.version)) = false ∧ now - p.2.fetchedAt > ma := by
  unfold selectedB at h
  simp only [Bool.and_eq_true, Bool.not_eq_true', decide_eq_true_eq] at h
  exact h

theorem dryStep_selected (kl : Bool) (ma now : Int) (latest : List (String × String))
    (res : PruneResult) (p : String × VersionInfo)
    (h : selectedB kl ma now latest p = true) :
    dryStep kl ma now latest res p =
      ⟨res.removedCount + 1, res.freedSpace + p.2.size, res.removedItems ++ [pairLabel p]⟩ := by
  obtain ⟨hskip, hage⟩ := selectedB_spec kl ma now latest p h
  unfold dryStep
  rw [hskip]
  simp only [Bool.false_eq_true, if_false, if_pos hage]
  rfl

theorem flatStep_selected_real (opts : PruneOptions) (now : Int)
    (latest : List (String × String)) (acc : PruneResult × FS) (p : String × VersionInfo)
    (fs3 : FS) (hdry : opts.dryRun = false)
    (h : selectedB opts.keepLatest opts.maxAge now latest p = true)
    (hrm : Cache.removeLibraryVersion acc.2 p.1 p.2.version = .ok fs3) :
    flatStep opts now latest acc p =
      (⟨acc.1.removedCount + 1, acc.1.freedSpace + p.2.size,
        acc.1.removedItems ++ [pairLabel p]⟩, fs3) := by
  obtain ⟨hskip, hage⟩ := selectedB_spec opts.keepLatest opts.maxAge now latest p h
  obtain ⟨libID, v⟩ := p
  unfold flatStep Cache.pruneStep
  dsimp only
  dsimp only at hskip hage hrm
  rw [hskip]
  simp only [Bool.false_eq_true, if_false, if_pos hage, hdry, hrm]
  rfl

theorem realLoop_spec (kl : Bool) (ma now : Int) (latest : List (String × String))
    (recs : List (String × VersionInfo)) :
    ∀ (fsA : FS) (res : PruneResult),
    (∀ p ∈ recs, GoodPair p) →
    (∀ p ∈ recs, dirOfPair p ∈ fsA.dirs) →
    List.Pairwise (fun a b => dirOfPair a ≠ dirOfPair b) recs →
    ∃ fsB, recs.foldl (flatStep ⟨ma, false, kl⟩ now latest) (res, fsA) =
        (recs.foldl (dryStep kl ma now latest) res, fsB) ∧
      (∀ q : Path, (∀ p ∈ recs, selectedB kl ma now latest p = true →
        ¬ (dirOfPair p <+: q)) → fsB.findFile q = fsA.findFile q) := by
  induction recs with
  | nil => intro fsA res _ _ _; exact ⟨fsA, rfl, fun q _ => rfl⟩
  | cons p ps ih =>
    intro fsA res hgood hdirs hpw
    obtain ⟨o, n, hp1, ho, hn, hv⟩ := hgood p (List.mem_cons_self p ps)
    have hdirp : dirOfPair p = ["libraries", o, n, p.2.version] :=
      dirOfPair_good p o n hp1 ho hn hv
    obtain ⟨hpwhead, hpwtail⟩ := List.pairwise_cons.mp hpw
    have hgoodtail : ∀ p' ∈ ps, GoodPair p' := fun p' hm => hgood p' (List.mem_cons_of_mem p hm)
    cases hsel : selectedB kl ma now latest p with
    | false =>
      rw [List.foldl_cons, List.foldl_cons,
        flatStep_not_selected _ now latest _ p (by simpa using hsel),
        dryStep_not_selected kl ma now latest res p hsel]
      have hdirstail : ∀ p' ∈ ps, dirOfPair p' ∈ fsA.dirs := fun p' hm =>
        hdirs p' (List.mem_cons_of_mem p hm)
      obtain ⟨fsB, h1, h2⟩ := ih fsA res hgoodtail hdirstail hpwtail
      exact ⟨fsB, h1, fun q hq => h2 q (fun p' hm hs => hq p' (List.mem_cons_of_mem p hm) hs)⟩
    | true =>
      have hdirin : ["libraries", o, n, p.2.version] ∈ fsA.dirs := by
        rw [← hdirp]
        exact hdirs p (List.mem_cons_self p ps)
      obtain ⟨fs2, hrm, hdirpres, hframe1⟩ :=
        removeLibraryVersion_ok fsA o n p.2.version ho hn hv hdirin
      have hrm2 : Cache.removeLibraryVersion ((res, fsA) : PruneResult × FS).2 p.1 p.2.version
          = .ok fs2 := by
        rw [show ((res, fsA) : PruneResult × FS).2 = fsA from rfl, hp1]
        exact hrm
      rw [List.foldl_cons, List.foldl_cons,
        flatStep_selected_real _ now latest (res, fsA) p fs2 rfl (by simpa using hsel) hrm2,
        dryStep_selected kl ma now latest res p hsel]
      have hdirstail : ∀ p' ∈ ps, dirOfPair p' ∈ fs2.dirs := by
        intro p' hm
        obtain ⟨o', n', hp1', ho', hn', hv'⟩ := hgoodtail p' hm
        have hdirp' : dirOfPair p' = ["libraries", o', n', p'.2.version] :=
          dirOfPair_good p' o' n' hp1' ho' hn' hv'
        refine hdirpres (dirOfPair p') (hdirs p' (List.mem_cons_of_mem p hm))
          (by rw [hdirp']; rfl) ?_
        rw [← hdirp]
        exact (hpwhead p' hm).symm
      obtain ⟨fsB, h1, h2⟩ := ih fs2
        ⟨res.removedCount + 1, res.freedSpace + p.2.size, res.removedItems ++ [pairLabel p]⟩
        hgoodtail hdirstail hpwtail
      refine ⟨fsB, h1, ?_⟩
      intro q hq
      rw [h2 q (fun p' hm hs => hq p' (List.mem_cons_of_mem p hm) hs), hframe1 q ?_]
      rw [← hdirp]
      exact hq p (List.mem_cons_self p ps) hsel

end Ctx7

namespace Ctx7

/-! ## From a well-formed layout to the loop hypotheses -/

theorem walkFiles_mem (fs : FS) (pf : Path × FSFile) (h : pf ∈ fs.walkFiles) :
    pf ∈ fs.files ∧ (["libraries"].isPrefixOf pf.1) = true := by
  unfold FS.walkFiles at h
  have h2 := (sortBy_perm _ _).mem_iff.mp h
  have h3 := List.mem_filter.mp h2
  refine ⟨h3.1, ?_⟩
  have := h3.2
  simp only [Bool.and_eq_true] at this
  exact this.1

theorem properEntryPath_shape (path : Path) (h : properEntryPath path = true) :
    ∃ o n v, path = ["libraries", o, n, v, "metadata.json"] ∧
      segOk o = true ∧ segOk n = true ∧ segOk v = true := by
  cases path with
  | nil => simp [properEntryPath] at h
  | cons a t1 =>
    cases t1 with
    | nil => simp [properEntryPath] at h
    | cons o t2 =>
      cases t2 with
      | nil => simp [properEntryPath] at h
      | cons n t3 =>
        cases t3 with
        | nil => simp [properEntryPath] at h
        | cons v t4 =>
          cases t4 with
          | nil => simp [properEntryPath] at h
          | cons f t5 =>
            cases t5 with
            | cons b t6 => simp [properEntryPath] at h
            | nil =>
              by_cases ha : a = "libraries"
              · by_cases hf : f = "metadata.json"
                · subst ha
                  subst hf
                  simp only [properEntryPath, Bool.and_eq_true] at h
                  exact ⟨o, n, v, rfl, h.1.1, h.1.2, h.2⟩
                · simp [properEntryPath, ha, hf] at h
              · simp [properEntryPath, ha] at h

theorem mkRec_some_name (fs : FS) (pf : Path × FSFile) (w : Cache.WalkRec)
    (hmk : Cache.mkRec fs pf = some w) :
    (lastName pf.1 == "metadata.json") = true := by
  unfold Cache.mkRec at hmk
  cases hname : (lastName pf.1 == "metadata.json") with
  | true => rfl
  | false => rw [hname] at hmk; simp at hmk

theorem properLayout_at (fs : FS) (hpl : properLayout fs = true) (pf : Path × FSFile)
    (hpf : pf ∈ fs.files) (hpre : (["libraries"].isPrefixOf pf.1) = true)
    (hname : (lastName pf.1 == "metadata.json") = true) :
    properEntryPath pf.1 = true := by
  unfold properLayout at hpl
  have h1 := List.all_eq_true.mp hpl pf hpf
  rw [hpre, hname] at h1
  simpa using h1

theorem mkRec_shape_fields (fs : FS) (pf : Path × FSFile) (w : Cache.WalkRec)
    (o n v : String) (hpath : pf.1 = ["libraries", o, n, v, "metadata.json"])
    (hmk : Cache.mkRec fs pf = some w) :
    w.libID = "/" ++ o ++ "/" ++ n ∧ w.vinfo.version = v := by
  unfold Cache.mkRec at hmk
  rw [hpath] at hmk
  have hname : (lastName ["libraries", o, n, v, "metadata.json"] == "metadata.json") = true := by
    simp [lastName]
  rw [hname] at hmk
  simp only [if_true] at hmk
  cases hdata : pf.2.data with
  | blob s => rw [hdata] at hmk; cases hmk
  | meta m =>
    rw [hdata] at hmk
    simp only [List.drop_succ_cons, List.drop_zero] at hmk
    cases hmk
    exact ⟨rfl, rfl⟩

/-- Everything the prune loop needs to know about one record produced by the
walk over a well-laid-out filesystem. -/
theorem mkRec_some_analysis (fs : FS) (hpl : properLayout fs = true) (pf : Path × FSFile)
    (hpf : pf ∈ fs.files) (hpre : (["libraries"].isPrefixOf pf.1) = true)
    (w : Cache.WalkRec) (hmk : Cache.mkRec fs pf = some w) :
    ∃ o n v, pf.1 = ["libraries", o, n, v, "metadata.json"] ∧
      segOk o = true ∧ segOk n = true ∧ segOk v = true ∧
      w.libID = "/" ++ o ++ "/" ++ n ∧ w.vinfo.version = v := by
  have hname := mkRec_some_name fs pf w hmk
  have hshape := properLayout_at fs hpl pf hpf hpre hname
  obtain ⟨o, n, v, hpath, ho, hn, hv⟩ := properEntryPath_shape pf.1 hshape
  obtain ⟨h1, h2⟩ := mkRec_shape_fields fs pf w o n v hpath hmk
  exact ⟨o, n, v, hpath, ho, hn, hv, h1, h2⟩

theorem goodPair_of_analysis (w : Cache.WalkRec) (o n v : String)
    (ho : segOk o = true) (hn : segOk n = true) (hv : segOk v = true)
    (h1 : w.libID = "/" ++ o ++ "/" ++ n) (h2 : w.vinfo.version = v) :
    GoodPair (recPair w) := by
  refine ⟨o, n, h1, ho, hn, ?_⟩
  show segOk w.vinfo.version = true
  rw [h2]
  exact hv

theorem dirOfPair_of_analysis (w : Cache.WalkRec) (o n v : String)
    (ho : segOk o = true) (hn : segOk n = true) (hv : segOk v = true)
    (h1 : w.libID = "/" ++ o ++ "/" ++ n) (h2 : w.vinfo.version = v) :
    dirOfPair (recPair w) = ["libraries", o, n, v] := by
  have := dirOfPair_good (recPair w) o n h1 ho hn (by show segOk w.vinfo.version = true; rw [h2]; exact hv)
  rw [this]
  show _ = _
  rw [show (recPair w).2.version = v from h2]

theorem walkFiles_pairwise_paths (fs : FS) (hwf : wellFormed fs = true) :
    List.Pairwise (fun a b : Path × FSFile => a.1 ≠ b.1) fs.walkFiles := by
  unfold wellFormed at hwf
  simp only [Bool.and_eq_true] at hwf
  have hnd : (fs.files.map Prod.fst).Nodup := (nodupPaths_iff _).mp hwf.1
  have hndf : ((fs.files.filter
      (fun pf => ["libraries"].isPrefixOf pf.1 && decide (2 ≤ pf.1.length))).map Prod.fst).Nodup :=
    hnd.sublist ((List.filter_sublist _).map Prod.fst)
  have hperm : List.Perm (fs.walkFiles.map Prod.fst)
      ((fs.files.filter
        (fun pf => ["libraries"].isPrefixOf pf.1 && decide (2 ≤ pf.1.length))).map Prod.fst) :=
    (sortBy_perm _ _).map Prod.fst
  have hndw : (fs.walkFiles.map Prod.fst).Nodup := hperm.nodup_iff.mpr hndf
  exact List.pairwise_map.mp hndw

theorem pairwise_dirs_aux (fs : FS) (hpl : properLayout fs = true) :
    ∀ l : List (Path × FSFile),
    (∀ pf ∈ l, pf ∈ fs.files ∧ (["libraries"].isPrefixOf pf.1) = true) →
    List.Pairwise (fun a b : Path × FSFile => a.1 ≠ b.1) l →
    List.Pairwise (fun a b => dirOfPair a ≠ dirOfPair b)
      ((l.filterMap (Cache.mkRec fs)).map recPair) := by
  intro l
  induction l with
  | nil => intro _ _; simp
  | cons pf rest ih =>
    intro hmem hpw
    obtain ⟨hpwhead, hpwtail⟩ := List.pairwise_cons.mp hpw
    have hmemtail : ∀ pf2 ∈ rest, pf2 ∈ fs.files ∧ (["libraries"].isPrefixOf pf2.1) = true :=
      fun pf2 hm => hmem pf2 (List.mem_cons_of_mem pf hm)
    cases hr : Cache.mkRec fs pf with
    | none =>
      rw [List.filterMap_cons, hr]
      exact ih hmemtail hpwtail
    | some w =>
      rw [List.filterMap_cons, hr, List.map_cons]
      refine List.pairwise_cons.mpr ⟨?_, ih hmemtail hpwtail⟩
      intro r hrmem
      obtain ⟨w2, hw2mem, hw2eq⟩ := List.mem_map.mp hrmem
      obtain ⟨pf2, hpf2mem, hpf2mk⟩ := List.mem_filterMap.mp hw2mem
      obtain ⟨hpf1, hpre1⟩ := hmem pf (List.mem_cons_self pf rest)
      obtain ⟨hpf2, hpre2⟩ := hmemtail pf2 hpf2mem
      obtain ⟨o, n, v, hpath, ho, hn, hv, hl1, hl2⟩ :=
        mkRec_some_analysis fs hpl pf hpf1 hpre1 w hr
      obtain ⟨o2, n2, v2, hpath2, ho2, hn2, hv2, hl12, hl22⟩ :=
        mkRec_some_analysis fs hpl pf2 hpf2 hpre2 w2 hpf2mk
      rw [← hw2eq]
      rw [dirOfPair_of_analysis w o n v ho hn hv hl1 hl2,
        dirOfPair_of_analysis w2 o2 n2 v2 ho2 hn2 hv2 hl12 hl22]
      intro hc
      apply hpwhead pf2 hpf2mem
      rw [hpath, hpath2]
      injection hc with hA hc
      injection hc with hB hc
      injection hc with hC hc
      injection hc with hD hc
      rw [hB, hC, hD]

end Ctx7

namespace Ctx7

/-! ## Claim C4: dry-run prune previews the real prune -/

theorem listCachedLibraries_isOk (fs : FS) : ∃ cat, Cache.listCachedLibraries fs = .ok cat := by
  unfold Cache.listCachedLibraries
  split
  · exact ⟨[], rfl⟩
  · exact ⟨_, rfl⟩

theorem listCachedLibraries_stat_false (fs : FS) (h : fs.statExists ["libraries"] = false) :
    Cache.listCachedLibraries fs = .ok [] := by
  simp [Cache.listCachedLibraries, h]

theorem catalog_pairs_facts (fs : FS) (hwf : wellFormed fs = true) (hpl : properLayout fs = true)
    (hstat : fs.statExists ["libraries"] = true)
    (cat : List CachedLibrary) (hcat : Cache.listCachedLibraries fs = .ok cat) :
    (∀ p ∈ pairsOf cat, GoodPair p) ∧
    (∀ p ∈ pairsOf cat, dirOfPair p ∈ fs.dirs) ∧
    List.Pairwise (fun a b => dirOfPair a ≠ dirOfPair b) (pairsOf cat) := by
  have hperm := catalog_pairs_perm fs hstat cat hcat
  have hmem : ∀ p ∈ pairsOf cat, ∃ pf, pf ∈ fs.files ∧ ∃ w,
      (["libraries"].isPrefixOf pf.1) = true ∧ Cache.mkRec fs pf = some w ∧ recPair w = p := by
    intro p hp
    have hp2 := hperm.mem_iff.mp hp
    obtain ⟨w, hwmem, hweq⟩ := List.mem_map.mp hp2
    obtain ⟨pf, hpfmem, hpfmk⟩ := List.mem_filterMap.mp hwmem
    obtain ⟨hf, hpre⟩ := walkFiles_mem fs pf hpfmem
    exact ⟨pf, hf, w, hpre, hpfmk, hweq⟩
  refine ⟨?_, ?_, ?_⟩
  · intro p hp
    obtain ⟨pf, hf, w, hpre, hmk, hweq⟩ := hmem p hp
    obtain ⟨o, n, v, hpath, ho, hn, hv, h1, h2⟩ := mkRec_some_analysis fs hpl pf hf hpre w hmk
    rw [← hweq]
    exact goodPair_of_analysis w o n v ho hn hv h1 h2
  · intro p hp
    obtain ⟨pf, hf, w, hpre, hmk, hweq⟩ := hmem p hp
    obtain ⟨o, n, v, hpath, ho, hn, hv, h1, h2⟩ := mkRec_some_analysis fs hpl pf hf hpre w hmk
    rw [← hweq, dirOfPair_of_analysis w o n v ho hn hv h1 h2]
    unfold wellFormed at hwf
    simp only [Bool.and_eq_true] at hwf
    have hall := List.all_eq_true.mp hwf.2 pf hf
    rw [hpath] at hall
    rw [show List.dropLast ["libraries", o, n, v, "metadata.json"] = ["libraries", o, n, v]
      from rfl] at hall
    rw [show ((["libraries", o, n, v] : Path) == ([] : Path)) = false from rfl] at hall
    simp only [Bool.false_or] at hall
    exact List.mem_of_elem_eq_true hall
  · have hpwpairs := pairwise_dirs_aux fs hpl fs.walkFiles
      (fun pf hm => walkFiles_mem fs pf hm) (walkFiles_pairwise_paths fs hwf)
    exact (hperm.pairwise_iff (fun hab => hab.symm)).mpr hpwpairs

theorem dryLoop_fs (opts : PruneOptions) (hdry : opts.dryRun = true) (now : Int)
    (latest : List (String × String)) :
    ∀ (recs : List (String × VersionInfo)) (acc : PruneResult × FS),
      recs.foldl (flatStep opts now latest) acc =
        (recs.foldl (dryStep opts.keepLatest opts.maxAge now latest) acc.1, acc.2) := by
  intro recs
  induction recs with
  | nil => intro acc; rfl
  | cons p ps ih =>
    intro acc
    rw [List.foldl_cons, List.foldl_cons, flatStep_dry opts now latest acc p hdry, ih]

/-- C4 (corrected): on a well-formed cache layout, a dry-run prune performs no
filesystem mutation and reports exactly what a real prune over the same state
removes.  (On adversarial trees where two catalog records map to the same
version directory the real prune removes fewer — see the counterexample.) -/
theorem prune_dryRun_spec (fs : FS) (now ma : Int) (kl : Bool)
    (hwf : wellFormed fs = true) (hpl : properLayout fs = true) :
    ∃ r fs2, Cache.prune fs now ⟨ma, true, kl⟩ = .ok (r, fs) ∧
      Cache.prune fs now ⟨ma, false, kl⟩ = .ok (r, fs2) := by
  cases hstat : fs.statExists ["libraries"] with
  | false =>
    have hc0 := listCachedLibraries_stat_false fs hstat
    refine ⟨⟨0, 0, []⟩, fs, ?_, ?_⟩ <;> (unfold Cache.prune; rw [hc0]; rfl)
  | true =>
    obtain ⟨cat, hcat⟩ := listCachedLibraries_isOk fs
    obtain ⟨hgood, hdirs, hpw⟩ := catalog_pairs_facts fs hwf hpl hstat cat hcat
    obtain ⟨fsB, hfold, -⟩ := realLoop_spec kl ma now
      (if kl then Cache.buildLatest cat else []) (pairsOf cat) fs ⟨0, 0, []⟩ hgood hdirs hpw
    refine ⟨(pairsOf cat).foldl
      (dryStep kl ma now (if kl then Cache.buildLatest cat else [])) ⟨0, 0, []⟩, fsB, ?_, ?_⟩
    · unfold Cache.prune
      rw [hcat]
      dsimp only
      rw [nested_foldl_eq_flat,
        dryLoop_fs ⟨ma, true, kl⟩ rfl now (if kl then Cache.buildLatest cat else [])]
    · unfold Cache.prune
      rw [hcat]
      dsimp only
      rw [nested_foldl_eq_flat, hfold]

/-- Witness for C4's amended theorem at a concrete well-formed input. -/
theorem prune_dryRun_spec_witness :
    ∃ r fs2, Cache.prune fsTwoEntries 1000 ⟨100, true, false⟩ = .ok (r, fsTwoEntries) ∧
      Cache.prune fsTwoEntries 1000 ⟨100, false, false⟩ = .ok (r, fs2) :=
  prune_dryRun_spec fsTwoEntries 1000 100 false (by decide) (by decide)

/-- Cache state with a foreign nested metadata file: two catalog records both
carry version `v` of `/acme/w`. -/
def fsNested : FS :=
  ⟨pathPrefixes ["libraries", "acme", "w", "v", "sub"],
   [(["libraries", "acme", "w", "v", "metadata.json"], ⟨.meta mdB, 12, 900⟩),
    (["libraries", "acme", "w", "v", "sub", "metadata.json"], ⟨.meta mdA, 10, 50⟩)]⟩

/-- C4 counterexample: on `fsNested` the dry run reports two removals (22
bytes) while the real prune over the same state removes only one (10 bytes) —
the first removal deletes the shared version directory and the second
removal fails with NotFound and is skipped. -/
theorem prune_dryRun_mismatch :
    Cache.prune fsNested 1000 ⟨50, true, false⟩ =
      .ok (⟨2, 22, ["/acme/w@v", "/acme/w@v"]⟩, fsNested) ∧
    (Cache.prune fsNested 1000 ⟨50, false, false⟩).map (fun x => x.1) =
      .ok ⟨1, 10, ["/acme/w@v"]⟩ := by
  constructor
  · decide
  · decide

/-! ## Claim C5: the keep-latest exemption of `Prune` -/

theorem latestFold_stable (t : Int) (ver : String) :
    ∀ l : List VersionInfo, (∀ w ∈ l, ¬ (w.fetchedAt > t)) →
    l.foldl (fun acc v => if v.fetchedAt > acc.1 then (v.fetchedAt, v.version) else acc)
      (t, ver) = (t, ver) := by
  intro l
  induction l with
  | nil => intro _; rfl
  | cons w ws ih =>
    intro h
    rw [List.foldl_cons]
    rw [if_neg (h w (List.mem_cons_self w ws))]
    exact ih (fun w2 hm => h w2 (List.mem_cons_of_mem w hm))

theorem latestFold_reaches (v : VersionInfo) :
    ∀ (l : List VersionInfo) (acc : Int × String), v ∈ l →
    (∀ w ∈ l, w ≠ v → w.fetchedAt < v.fetchedAt) → acc.1 < v.fetchedAt →
    l.foldl (fun acc v => if v.fetchedAt > acc.1 then (v.fetchedAt, v.version) else acc)
      acc = (v.fetchedAt, v.version) := by
  intro l
  induction l with
  | nil => intro acc hmem _ _; exact absurd hmem (by simp)
  | cons w ws ih =>
    intro acc hmem hmax hacc
    rw [List.foldl_cons]
    by_cases hw : w = v
    · subst hw
      rw [if_pos hacc]
      exact latestFold_stable w.fetchedAt w.version ws (fun w2 hm => by
        by_cases hw2 : w2 = w
        · subst hw2; exact lt_irrefl w2.fetchedAt
        · exact lt_asymm (hmax w2 (List.mem_cons_of_mem w hm) hw2))
    · have hvm : v ∈ ws := by
        cases List.mem_cons.mp hmem with
        | inl he => exact absurd he.symm hw
        | inr hm => exact hm
      have hlt : w.fetchedAt < v.fetchedAt := hmax w (List.mem_cons_self w ws) hw
      by_cases hc : w.fetchedAt > acc.1
      · rw [if_pos hc]
        exact ih (w.fetchedAt, w.version) hvm
          (fun w2 hm h2 => hmax w2 (List.mem_cons_of_mem w hm) h2) hlt
      · rw [if_neg hc]
        exact ih acc hvm (fun w2 hm h2 => hmax w2 (List.mem_cons_of_mem w hm) h2) hacc

theorem latestOf_strict (l : List VersionInfo) (v : VersionInfo) (hv : v ∈ l)
    (hmax : ∀ w ∈ l, w ≠ v → w.fetchedAt < v.fetchedAt) (hpos : 0 < v.fetchedAt) :
    Cache.latestOf l = (v.fetchedAt, v.version) := by
  unfold Cache.latestOf
  exact latestFold_reaches v l (0, "") hv hmax hpos

theorem insertRec_ids_mem (r : Cache.WalkRec) (x : String) :
    ∀ cat : List CachedLibrary,
    (x ∈ (Cache.insertRec cat r).map (fun l => l.libraryID) ↔
      x ∈ cat.map (fun l => l.libraryID) ∨ x = r.libID) := by
  intro cat
  induction cat with
  | nil => simp [Cache.insertRec]
  | cons lib rest ih =>
    unfold Cache.insertRec
    by_cases hb : (lib.libraryID == r.libID) = true
    · rw [if_pos hb]
      have heq : lib.libraryID = r.libID := by simpa using hb
      simp only [List.map_cons, List.mem_cons]
      rw [← heq]
      tauto
    · rw [if_neg hb]
      simp only [List.map_cons, List.mem_cons, ih]
      tauto

theorem insertRec_ids_nodup (r : Cache.WalkRec) :
    ∀ cat : List CachedLibrary, ((cat.map (fun l => l.libraryID)).Nodup) →
    ((Cache.insertRec cat r).map (fun l => l.libraryID)).Nodup := by
  intro cat
  induction cat with
  | nil => intro _; simp [Cache.insertRec]
  | cons lib rest ih =>
    intro h
    unfold Cache.insertRec
    by_cases hb : (lib.libraryID == r.libID) = true
    · rw [if_pos hb]
      simpa using h
    · rw [if_neg hb]
      simp only [List.map_cons, List.nodup_cons] at h ⊢
      refine ⟨?_, ih h.2⟩
      intro hmem
      cases (insertRec_ids_mem r lib.libraryID rest).mp hmem with
      | inl h2 => exact h.1 h2
      | inr h2 => exact hb (by simp [h2])

theorem foldl_insertRec_ids_nodup :
    ∀ (recs : List Cache.WalkRec) (cat : List CachedLibrary),
    ((cat.map (fun l => l.libraryID)).Nodup) →
    (((recs.foldl Cache.insertRec cat).map (fun l => l.libraryID)).Nodup) := by
  intro recs
  induction recs with
  | nil => intro cat h; exact h
  | cons r rs ih =>
    intro cat h
    rw [List.foldl_cons]
    exact ih (Cache.insertRec cat r) (insertRec_ids_nodup r cat h)

theorem catalog_ids_nodup (fs : FS) (cat : List CachedLibrary)
    (hcat : Cache.listCachedLibraries fs = .ok cat) :
    ((cat.map (fun l => l.libraryID)).Nodup) := by
  cases hstat : fs.statExists ["libraries"] with
  | false =>
    rw [listCachedLibraries_stat_false fs hstat] at hcat
    injection hcat with h
    rw [← h]
    exact List.nodup_nil
  | true =>
    unfold Cache.listCachedLibraries at hcat
    rw [hstat] at hcat
    simp only [Bool.not_true, Bool.false_eq_true, if_false, Except.ok.injEq] at hcat
    subst hcat
    refine (((sortBy_perm Cache.libLt _).map (fun l => l.libraryID)).nodup_iff).mpr ?_
    rw [List.map_map]
    exact foldl_insertRec_ids_nodup _ [] List.nodup_nil

theorem buildLatest_cons_none (l : CachedLibrary) (rest : List CachedLibrary)
    (h : ((Cache.latestOf l.versions).2 == "") = true) :
    Cache.buildLatest (l :: rest) = Cache.buildLatest rest := by
  unfold Cache.buildLatest
  apply List.filterMap_cons_none
  dsimp only
  rw [if_pos h]

theorem buildLatest_cons_some (l : CachedLibrary) (rest : List CachedLibrary)
    (h : ((Cache.latestOf l.versions).2 == "") = false) :
    Cache.buildLatest (l :: rest) =
      (l.libraryID, (Cache.latestOf l.versions).2) :: Cache.buildLatest rest := by
  unfold Cache.buildLatest
  apply List.filterMap_cons_some
  dsimp only
  rw [if_neg (by simp [h])]

theorem lookupD_cons_hit (k v : String) (rest : List (String × String)) :
    Cache.lookupD ((k, v) :: rest) k = v := by
  have hf : List.find? (fun q => q.1 == k) ((k, v) :: rest) = some (k, v) :=
    List.find?_cons_of_pos _ (by simp)
  unfold Cache.lookupD
  rw [hf]

theorem lookupD_cons_miss (x : String × String) (rest : List (String × String)) (k : String)
    (h : (x.1 == k) = false) : Cache.lookupD (x :: rest) k = Cache.lookupD rest k := by
  have hf : List.find? (fun q => q.1 == k) (x :: rest) = List.find? (fun q => q.1 == k) rest :=
    List.find?_cons_of_neg _ (by simp [h])
  unfold Cache.lookupD
  rw [hf]

theorem buildLatest_lookup (lib : CachedLibrary) (lv : String) (hne : lv ≠ "")
    (hlv : (Cache.latestOf lib.versions).2 = lv) :
    ∀ libs : List CachedLibrary, lib ∈ libs →
    ((libs.map (fun l => l.libraryID)).Nodup) →
    Cache.lookupD (Cache.buildLatest libs) lib.libraryID = lv := by
  intro libs
  induction libs with
  | nil => intro hmem _; exact absurd hmem (by simp)
  | cons l2 rest ih =>
    intro hmem hnd
    simp only [List.map_cons, List.nodup_cons] at hnd
    cases List.mem_cons.mp hmem with
    | inl he =>
      subst he
      have hb : ((Cache.latestOf lib.versions).2 == "") = false := by
        rw [hlv]; exact beq_eq_false_iff_ne.mpr hne
      rw [buildLatest_cons_some lib rest hb, hlv]
      exact lookupD_cons_hit lib.libraryID lv (Cache.buildLatest rest)
    | inr hm =>
      have hne2 : (l2.libraryID == lib.libraryID) = false := by
        refine beq_eq_false_iff_ne.mpr ?_
        intro he
        exact hnd.1 (by rw [he]; exact List.mem_map.mpr ⟨lib, hm, rfl⟩)
      cases hb2 : (Cache.latestOf l2.versions).2 == "" with
      | true =>
        rw [buildLatest_cons_none l2 rest hb2]
        exact ih hm hnd.2
      | false =>
        rw [buildLatest_cons_some l2 rest hb2, lookupD_cons_miss _ _ _ hne2]
        exact ih hm hnd.2

theorem dryStep_items (kl : Bool) (ma now : Int) (latest : List (String × String))
    (res : PruneResult) (p : String × VersionInfo) :
    (dryStep kl ma now latest res p).removedItems =
      res.removedItems ++
        (if selectedB kl ma now latest p = true then [pairLabel p] else []) := by
  unfold dryStep selectedB pairLabel
  cases hb : kl && (Cache.lookupD latest p.1 == p.2.version) with
  | true => simp
  | false =>
    by_cases h2 : now - p.2.fetchedAt > ma
    · simp [h2]
    · simp [h2]

theorem dryFold_items (kl : Bool) (ma now : Int) (latest : List (String × String)) :
    ∀ (recs : List (String × VersionInfo)) (res : PruneResult),
    (recs.foldl (dryStep kl ma now latest) res).removedItems =
      res.removedItems ++ (recs.filter (selectedB kl ma now latest)).map pairLabel := by
  intro recs
  induction recs with
  | nil => intro res; simp
  | cons p ps ih =>
    intro res
    rw [List.foldl_cons, ih, List.filter_cons, dryStep_items]
    by_cases h : selectedB kl ma now latest p = true
    · rw [if_pos h, if_pos h]
      simp
    · rw [if_neg h, if_neg h]
      simp

theorem pairsOf_mem_of {cat : List CachedLibrary} {lib : CachedLibrary} {w : VersionInfo}
    (hlib : lib ∈ cat) (hw : w ∈ lib.versions) : (lib.libraryID, w) ∈ pairsOf cat := by
  unfold pairsOf
  exact List.mem_flatMap.mpr ⟨lib, hlib, List.mem_map.mpr ⟨w, hw, rfl⟩⟩

/-- C5 (corrected): with `KeepLatest` set, for a library whose strictly most
recently fetched version has a version string no other record of that library
(or label-colliding record elsewhere) shares, a prune on a well-formed cache
never reports that version in `RemovedItems` and leaves its metadata file
untouched, while every other version of the library older than the threshold
is reported removed.  (The exemption compares version strings, not records,
so a stale record sharing the latest's version string survives — see the
counterexample.) -/
theorem prune_keepLatest_spec (fs : FS) (now ma : Int) (dr : Bool)
    (hwf : wellFormed fs = true) (hpl : properLayout fs = true)
    (cat : List CachedLibrary) (hcat : Cache.listCachedLibraries fs = .ok cat)
    (lib : CachedLibrary) (hlib : lib ∈ cat) (vstar : VersionInfo) (hv : vstar ∈ lib.versions)
    (hstrict : ∀ w ∈ lib.versions, w ≠ vstar → w.fetchedAt < vstar.fetchedAt)
    (hpos : 0 < vstar.fetchedAt)
    (huniq : ∀ p ∈ pairsOf cat, pairLabel p = pairLabel (lib.libraryID, vstar) →
      p.1 = lib.libraryID ∧ p.2.version = vstar.version) :
    ∃ r fs2, Cache.prune fs now ⟨ma, dr, true⟩ = .ok (r, fs2) ∧
      pairLabel (lib.libraryID, vstar) ∉ r.removedItems ∧
      fs2.findFile (dirOfPair (lib.libraryID, vstar) ++ ["metadata.json"]) =
        fs.findFile (dirOfPair (lib.libraryID, vstar) ++ ["metadata.json"]) ∧
      (∀ w ∈ lib.versions, w.version ≠ vstar.version → now - w.fetchedAt > ma →
        pairLabel (lib.libraryID, w) ∈ r.removedItems) := by
  have hstat : fs.statExists ["libraries"] = true := by
    cases h : fs.statExists ["libraries"] with
    | true => rfl
    | false =>
      rw [listCachedLibraries_stat_false fs h] at hcat
      injection hcat with h2
      subst h2
      exact absurd hlib (by simp)
  obtain ⟨hgood, hdirs, hpw⟩ := catalog_pairs_facts fs hwf hpl hstat cat hcat
  have hpstar : (lib.libraryID, vstar) ∈ pairsOf cat := pairsOf_mem_of hlib hv
  obtain ⟨o2, n2, hs1, ho2, hn2, hv2⟩ := hgood (lib.libraryID, vstar) hpstar
  have hs1x : lib.libraryID = "/" ++ o2 ++ "/" ++ n2 := hs1
  have hv2x : segOk vstar.version = true := hv2
  have hdirstar : dirOfPair (lib.libraryID, vstar) = ["libraries", o2, n2, vstar.version] :=
    dirOfPair_good (lib.libraryID, vstar) o2 n2 hs1 ho2 hn2 hv2
  have hvne : vstar.version ≠ "" := by
    intro he
    rw [he] at hv2x
    exact absurd hv2x (by decide)
  have hnodup : ((cat.map (fun l => l.libraryID)).Nodup) := catalog_ids_nodup fs cat hcat
  have hlookup : Cache.lookupD (Cache.buildLatest cat) lib.libraryID = vstar.version :=
    buildLatest_lookup lib vstar.version hvne
      (by rw [latestOf_strict lib.versions vstar hv hstrict hpos]) cat hlib hnodup
  have hselstar : ∀ p : String × VersionInfo, p.1 = lib.libraryID →
      p.2.version = vstar.version →
      selectedB true ma now (Cache.buildLatest cat) p = false := by
    intro p h1 h2
    unfold selectedB
    rw [h1, hlookup, h2]
    simp
  have hselother : ∀ w : VersionInfo, w.version ≠ vstar.version → now - w.fetchedAt > ma →
      selectedB true ma now (Cache.buildLatest cat) (lib.libraryID, w) = true := by
    intro w hne2 hage
    unfold selectedB
    dsimp only
    rw [hlookup]
    rw [beq_eq_false_iff_ne.mpr (Ne.symm hne2)]
    simp [hage]
  have hitems : ((pairsOf cat).foldl (dryStep true ma now (Cache.buildLatest cat))
        (⟨0, 0, []⟩ : PruneResult)).removedItems =
      ((pairsOf cat).filter (selectedB true ma now (Cache.buildLatest cat))).map pairLabel := by
    rw [dryFold_items]
    rfl
  have hnotin : pairLabel (lib.libraryID, vstar) ∉
      ((pairsOf cat).foldl (dryStep true ma now (Cache.buildLatest cat))
        (⟨0, 0, []⟩ : PruneResult)).removedItems := by
    rw [hitems]
    intro hmem2
    obtain ⟨p, hpf, hpl2⟩ := List.mem_map.mp hmem2
    obtain ⟨h1, h2⟩ := huniq p (List.mem_filter.mp hpf).1 hpl2
    have hpsel := (List.mem_filter.mp hpf).2
    rw [hselstar p h1 h2] at hpsel
    exact absurd hpsel (by decide)
  have hin : ∀ w ∈ lib.versions, w.version ≠ vstar.version → now - w.fetchedAt > ma →
      pairLabel (lib.libraryID, w) ∈
        ((pairsOf cat).foldl (dryStep true ma now (Cache.buildLatest cat))
          (⟨0, 0, []⟩ : PruneResult)).removedItems := by
    intro w hw hne2 hage
    rw [hitems]
    exact List.mem_map.mpr ⟨(lib.libraryID, w),
      List.mem_filter.mpr ⟨pairsOf_mem_of hlib hw, hselother w hne2 hage⟩, rfl⟩
  cases dr with
  | true =>
    refine ⟨(pairsOf cat).foldl (dryStep true ma now (Cache.buildLatest cat)) ⟨0, 0, []⟩,
      fs, ?_, hnotin, rfl, hin⟩
    unfold Cache.prune
    rw [hcat]
    show Except.ok (cat.foldl (fun acc lib2 =>
        lib2.versions.foldl (Cache.pruneStep ⟨ma, true, true⟩ now
          (Cache.buildLatest cat) lib2.libraryID) acc)
      ((⟨0, 0, []⟩, fs) : PruneResult × FS)) = _
    rw [nested_foldl_eq_flat, dryLoop_fs ⟨ma, true, true⟩ rfl now (Cache.buildLatest cat)]
  | false =>
    obtain ⟨fsB, hfold, hframe⟩ := realLoop_spec true ma now (Cache.buildLatest cat)
      (pairsOf cat) fs ⟨0, 0, []⟩ hgood hdirs hpw
    refine ⟨(pairsOf cat).foldl (dryStep true ma now (Cache.buildLatest cat)) ⟨0, 0, []⟩,
      fsB, ?_, hnotin, ?_, hin⟩
    · unfold Cache.prune
      rw [hcat]
      show Except.ok (cat.foldl (fun acc lib2 =>
          lib2.versions.foldl (Cache.pruneStep ⟨ma, false, true⟩ now
            (Cache.buildLatest cat) lib2.libraryID) acc)
        ((⟨0, 0, []⟩, fs) : PruneResult × FS)) = _
      rw [nested_foldl_eq_flat, hfold]
    · apply hframe
      intro p hpmem hpsel hpre
      obtain ⟨o, n, hp1, ho, hn, hvp⟩ := hgood p hpmem
      have hdirp : dirOfPair p = ["libraries", o, n, p.2.version] :=
        dirOfPair_good p o n hp1 ho hn hvp
      rw [hdirp, hdirstar] at hpre
      obtain ⟨t, ht⟩ := hpre
      obtain ⟨heq, -⟩ := List.append_inj ht rfl
      injection heq with h0 heq1
      injection heq1 with ho3 heq2
      injection heq2 with hn3 heq3
      injection heq3 with hvv h9
      have hid : p.1 = lib.libraryID := by
        rw [hp1, ho3, hn3]
        exact hs1x.symm
      rw [hselstar p hid hvv] at hpsel
      exact absurd hpsel (by decide)

/-- Witness for C5's amended theorem at a concrete input: with keep-latest
set, pruning `fsTwoEntries` (threshold 50 at time 1000) spares version `2.0`
of `/acme/widgets` and removes version `1.0`. -/
theorem prune_keepLatest_spec_witness :
    ∃ r fs2, Cache.prune fsTwoEntries 1000 ⟨50, true, true⟩ = .ok (r, fs2) ∧
      pairLabel ("/acme/widgets", ⟨"2.0", false, 12, 900, mdB⟩) ∉ r.removedItems ∧
      fs2.findFile (dirOfPair ("/acme/widgets", ⟨"2.0", false, 12, 900, mdB⟩) ++
          ["metadata.json"]) =
        fsTwoEntries.findFile (dirOfPair ("/acme/widgets", ⟨"2.0", false, 12, 900, mdB⟩) ++
          ["metadata.json"]) ∧
      (∀ w ∈ (⟨"/acme/widgets", "acme", "widgets",
            [⟨"1.0", false, 12, 50, mdA⟩, ⟨"2.0", false, 12, 900, mdB⟩]⟩ :
            CachedLibrary).versions,
        w.version ≠ "2.0" → (1000 : Int) - w.fetchedAt > 50 →
        pairLabel ("/acme/widgets", w) ∈ r.removedItems) :=
  prune_keepLatest_spec fsTwoEntries 1000 50 true (by decide) (by decide)
    catTwoEntries (by decide)
    ⟨"/acme/widgets", "acme", "widgets",
      [⟨"1.0", false, 12, 50, mdA⟩, ⟨"2.0", false, 12, 900, mdB⟩]⟩ (by decide)
    ⟨"2.0", false, 12, 900, mdB⟩ (by decide) (by decide) (by decide) (by decide)

/-- C5 counterexample: in `fsNested` the record of `/acme/w` fetched at 50
(age 950, above the threshold 100) does not hold the strictly most recent
fetch timestamp of the library — the other record was fetched at 900 — yet a
real keep-latest prune removes nothing: the exemption compares version
strings and both records carry the version string `v`. -/
theorem prune_keepLatest_stale_survives :
    Cache.listCachedLibraries fsNested = .ok
      [⟨"/acme/w", "acme", "w",
        [⟨"v", false, 10, 50, mdA⟩, ⟨"v", false, 12, 900, mdB⟩]⟩] ∧
    ((1000 : Int) - 50 > 100) ∧ ((50 : Int) < 900) ∧
    Cache.prune fsNested 1000 ⟨100, false, true⟩ = .ok (⟨0, 0, []⟩, fsNested) := by
  refine ⟨by decide, by decide, by decide, by decide⟩

end Ctx7
